import Mathlib

/-!
# Verification of the dsmr42 DSMR telegram parser

Shallow embedding of `src/dsmr42/src/lib.rs` (nom-based streaming parser for
DSMR 4.2 telegrams) over byte lists (`List Nat`).

Modelling notes:

* Rust's `parse` first validates the byte slice as UTF-8 and then runs nom
  parsers over `&str`.  Every pattern the nom parsers match (`/`, `!`, digits,
  hex digits, `\r\n`, `(`, `)`, `.`, `-`, `:`, `S`, `W`) is ASCII, and in valid
  UTF-8 an ASCII byte occurs only as a one-byte character, so the `&str`
  parsers are modelled byte-for-byte on the underlying UTF-8 bytes.  Lengths
  (`str::len`, `nom` error offsets) are byte lengths in Rust and list lengths
  here.
* nom's streaming results are modelled by `PR`: `ok remaining value`,
  `err inputAtError kind` (nom `Err::Error`; `Err::Failure` is never produced
  by this code) and `incomplete` (nom `Err::Incomplete`).
* `decode_hex` indexes `data[2*i]` / `data[2*i+1]` without a bounds check;
  an out-of-bounds index is a Rust panic, modelled as `none` in an `Option`
  layer that wraps the checksum-trailer parser and everything above it.
* Machine integers are `Nat` with explicit `% 2^32` where the source can wrap
  (`u32` arithmetic in `fixed_point`, compiled with overflow checks off);
  `u8`/`u16`/`u32` parsing failure on overflow is modelled by explicit bounds.
-/

deriving instance DecidableEq for Except

set_option maxRecDepth 100000

namespace Dsmr

/-- ASCII decimal digit test on a byte (nom `is_dec_digit` on a `char`;
multi-byte characters start with a byte `≥ 0x80`, hence never match). -/
def isDigitB (b : Nat) : Bool := 48 ≤ b && b ≤ 57

/-- ASCII hex digit test on a byte (nom `is_hex_digit`). -/
def isHexB (b : Nat) : Bool := (48 ≤ b && b ≤ 57) || (65 ≤ b && b ≤ 70) || (97 ≤ b && b ≤ 102)

/-- Bytes of an ASCII string literal (used only on ASCII literals, where
UTF-8 bytes and code points coincide). -/
def strBytes (s : String) : List Nat := s.data.map Char.toNat

/-- Boolean prefix test on byte lists (nom's byte-wise `compare`). -/
def pfx : List Nat → List Nat → Bool
  | [], _ => true
  | _ :: _, [] => false
  | a :: xs, b :: ys => a == b && pfx xs ys

/-- First index at which `needle` occurs as a contiguous sublist
(nom `FindSubstring`), if any. -/
def findSub (needle : List Nat) : List Nat → Option Nat
  | [] => if pfx needle [] then some 0 else none
  | b :: rest => if pfx needle (b :: rest) then some 0 else (findSub needle rest).map (· + 1)

/-- nom error kinds produced by this code. -/
inductive ErrKind where
  | tag | crLf | digit | hexDigit | takeWhileMN | mapRes | chr | nonEmpty | tooLarge
  | takeUntil
deriving DecidableEq, Repr

/-- Result of a nom streaming parser: `ok remaining value`,
`err inputAtFailure kind` (`Err::Error`) or `incomplete` (`Err::Incomplete`). -/
inductive PR (α : Type) where
  | ok : List Nat → α → PR α
  | err : List Nat → ErrKind → PR α
  | incomplete : PR α
deriving DecidableEq, Repr

/-- Parser sequencing (Rust `?` on an `IResult`): run `p`, feed the remaining
input to the parser chosen by the value. -/
def pbind {α β : Type} (p : List Nat → PR α) (f : α → List Nat → PR β) (s : List Nat) : PR β :=
  match p s with
  | .ok rem v => f v rem
  | .err i k => .err i k
  | .incomplete => .incomplete

/-- The parser returning `v` without consuming input. -/
def pret {α : Type} (v : α) (s : List Nat) : PR α := .ok s v

/-- `nom::bytes::streaming::tag` (and `character::streaming::crlf`, which is
the same shape with kind `CrLf`): full match, or `Incomplete` when the input
is a proper prefix of the tag, or `Error` otherwise. -/
def tagK (t : List Nat) (k : ErrKind) (s : List Nat) : PR (List Nat) :=
  if pfx t s then .ok (s.drop t.length) t
  else if pfx s t then .incomplete
  else .err s k

def crlfB : List Nat := [13, 10]

def crlfP (s : List Nat) : PR (List Nat) := tagK crlfB .crLf s

/-- `nom::bytes::streaming::take_until`: consume up to (excluding) the first
occurrence of the needle; `Incomplete` when the needle is absent. -/
def takeUntilP (needle : List Nat) (s : List Nat) : PR (List Nat) :=
  match findSub needle s with
  | some j => .ok (s.drop j) (s.take j)
  | none => .incomplete

/-- `split_at_position1` streaming (shape of `digit1` / `hex_digit1`):
`Incomplete` when every byte matches (more matching input may follow),
`Error` when the first byte does not match, else the nonempty matching run. -/
def span1P (pred : Nat → Bool) (k : ErrKind) (s : List Nat) : PR (List Nat) :=
  if (s.dropWhile pred).isEmpty then .incomplete
  else if (s.takeWhile pred).isEmpty then .err s k
  else .ok (s.dropWhile pred) (s.takeWhile pred)

def digit1P (s : List Nat) : PR (List Nat) := span1P isDigitB .digit s

def hexDigit1P (s : List Nat) : PR (List Nat) := span1P isHexB .hexDigit s

/-- `nom::character::streaming::char` for an ASCII character. -/
def charP (c : Nat) (s : List Nat) : PR Nat :=
  match s with
  | [] => .incomplete
  | b :: rest => if b = c then .ok rest c else .err s .chr

/-- `take_while_m_n` streaming (used with `m = n`): with `j` the length of the
leading matching run, all-matching input of length `< n` is `Incomplete`,
`j < m` is an error, otherwise `min j n` bytes are taken. -/
def twmnS (m n : Nat) (pred : Nat → Bool) (s : List Nat) : PR (List Nat) :=
  if (s.takeWhile pred).length = s.length then
    if n ≤ s.length then .ok (s.drop n) (s.take n) else .incomplete
  else if m ≤ (s.takeWhile pred).length then
    .ok (s.drop (min (s.takeWhile pred).length n)) (s.take (min (s.takeWhile pred).length n))
  else .err s .takeWhileMN

/-- `nom::bytes::complete::take_while_m_n` (used with `m = n`). -/
def twmnC (m n : Nat) (pred : Nat → Bool) (s : List Nat) : PR (List Nat) :=
  if m ≤ (s.takeWhile pred).length then
    .ok (s.drop (min (s.takeWhile pred).length n)) (s.take (min (s.takeWhile pred).length n))
  else .err s .takeWhileMN

/-- `nom::combinator::map_res`: on a decode failure the error input is the
parser's original input. -/
def mapResP {α β : Type} (p : List Nat → PR α) (f : α → Option β) (s : List Nat) : PR β :=
  match p s with
  | .ok rem v =>
    match f v with
    | some w => .ok rem w
    | none => .err s .mapRes
  | .err i k => .err i k
  | .incomplete => .incomplete

/-- Numeric value of an ASCII decimal digit string (`str::parse`, minus the
range check). -/
def valNat (bs : List Nat) : Nat := bs.foldl (fun a b => a * 10 + (b - 48)) 0

/-- `str::parse::<u8>` on the digit strings produced by the surrounding
parsers: fails on empty input, a non-digit, or a value above `u8::MAX`. -/
def parseU8 (bs : List Nat) : Option Nat :=
  if bs.isEmpty then none
  else if bs.all isDigitB then
    if valNat bs ≤ 255 then some (valNat bs) else none
  else none

/-- `str::parse::<u32>`. -/
def parseU32 (bs : List Nat) : Option Nat :=
  if bs.isEmpty then none
  else if bs.all isDigitB then
    if valNat bs < 4294967296 then some (valNat bs) else none
  else none

/-- `fn u8`: `map_res(digit1, |s| s.parse())`. -/
def u8P (s : List Nat) : PR Nat := mapResP digit1P parseU8 s

/-- `fn u8_complete`: `map_res(complete::take_while_m_n(d, d, is_digit), parse)`. -/
def u8c (d : Nat) (s : List Nat) : PR Nat := mapResP (twmnC d d isDigitB) parseU8 s

/-- `fn u32_complete`. -/
def u32c (d : Nat) (s : List Nat) : PR Nat := mapResP (twmnC d d isDigitB) parseU32 s

/-- `10u32.pow e` with overflow checks off: wrapping power. -/
def u32pow (b e : Nat) : Nat := (b ^ e) % 4294967296

/-- `fn fixed_point`: `digits` integer digits, a literal `.`, `decimals`
fractional digits (streaming `take_while_m_n`), combined as
`integer * 10u32.pow(decimals) + fractional` in wrapping `u32` arithmetic. -/
def fixedPoint (digits decimals : Nat) (s : List Nat) : PR Nat :=
  mapResP
    (pbind (mapResP (pbind (twmnS digits digits isDigitB) fun v =>
                     pbind (tagK [46] .tag) fun _ => pret v)
                    parseU32) fun a =>
     pbind (mapResP (twmnS decimals decimals isDigitB) parseU32) fun b =>
     pret (a, b))
    (fun ab => some ((ab.1 * u32pow 10 decimals % 4294967296 + ab.2) % 4294967296))
    s

/-- `struct Timestamp`. -/
structure Ts where
  year : Nat
  month : Nat
  day : Nat
  hour : Nat
  minute : Nat
  second : Nat
  dst : Bool
deriving DecidableEq, Repr

/-- `enum Phase`. -/
inductive Phase where
  | l1 | l2 | l3
deriving DecidableEq, Repr

/-- OBIS code `[u8; 6]`, groups A..F. -/
structure Obis where
  a : Nat
  b : Nat
  c : Nat
  d : Nat
  e : Nat
  f : Nat
deriving DecidableEq, Repr

/-- `enum Line`. -/
inductive Line where
  | version : Nat → Line
  | timestamp : Ts → Line
  | equipmentId : Line
  | powerFailureLog : Line
  | consumed : Nat → Nat → Line
  | produced : Nat → Nat → Line
  | activeTariff : Nat → Line
  | totalConsuming : Nat → Line
  | totalProducing : Nat → Line
  | powerFailures : Nat → Line
  | longPowerFailures : Nat → Line
  | voltageSags : Nat → Line
  | voltageSwells : Nat → Line
  | current : Phase → Nat → Line
  | consuming : Phase → Nat → Line
  | producing : Phase → Nat → Line
  | unknownObis : Obis → Line
deriving DecidableEq, Repr

/-- `struct RawLine`. -/
structure RawLine where
  obis : Obis
  cosem : List (List Nat)
deriving DecidableEq, Repr

/-- `struct Telegram`. -/
structure Telegram where
  device_id : List Nat
  lines : List Line
  crc : Nat
deriving DecidableEq, Repr

/-- `enum TelegramParseError`. -/
inductive TelegramParseError where
  | crcMismatch : Nat → Nat → TelegramParseError
  | invalidUtf8 : TelegramParseError
  | incomplete : TelegramParseError
  | parseError : Nat → ErrKind → TelegramParseError
deriving DecidableEq, Repr

/-- `alt((char('S'), char('W')))`: the second branch runs only on
`Err::Error`; `Incomplete` propagates. -/
def altSW (s : List Nat) : PR Nat :=
  match charP 83 s with
  | .ok r c => .ok r c
  | .incomplete => .incomplete
  | .err _ _ => charP 87 s

/-- `fn timestamp`: six two-digit fields, then `alt((char('S'), char('W')))`;
the year is offset by `+2000`, `dst` iff the marker is `S`. -/
def timestampP : List Nat → PR Ts :=
  pbind (u8c 2) fun y =>
  pbind (u8c 2) fun mo =>
  pbind (u8c 2) fun d =>
  pbind (u8c 2) fun h =>
  pbind (u8c 2) fun mi =>
  pbind (u8c 2) fun sec =>
  pbind altSW fun c =>
  pret ⟨y + 2000, mo, d, h, mi, sec, c == 83⟩

/-- `opt(preceded(tag("."), u8))` for the optional OBIS group F
(`opt` restores the input on `Err::Error` and propagates `Incomplete`). -/
def optDotU8 (s : List Nat) : PR (Option Nat) :=
  match pbind (tagK [46] .tag) (fun _ => u8P) s with
  | .ok r v => .ok r (some v)
  | .err _ _ => .ok s none
  | .incomplete => .incomplete

/-- `fn obis_code`: groups A..E as `u8` separated by `-`, `:`, `.`, `.`,
then optional `.F`, defaulting F to 255. -/
def obisP : List Nat → PR Obis :=
  pbind u8P fun a =>
  pbind (tagK [45] .tag) fun _ =>
  pbind u8P fun b =>
  pbind (tagK [58] .tag) fun _ =>
  pbind u8P fun c =>
  pbind (tagK [46] .tag) fun _ =>
  pbind u8P fun d =>
  pbind (tagK [46] .tag) fun _ =>
  pbind u8P fun e =>
  pbind optDotU8 fun fOpt =>
  pret ⟨a, b, c, d, e, fOpt.getD 255⟩

/-- `fn cosem`: `delimited(tag("("), take_until(")"), tag(")"))`. -/
def cosemP : List Nat → PR (List Nat) :=
  pbind (tagK [40] .tag) fun _ =>
  pbind (takeUntilP [41]) fun v =>
  pbind (tagK [41] .tag) fun _ =>
  pret v

/-- The COSEM loop of `fn raw_line`: push each parenthesized value (capacity
16, a failed `try_push` is a `TooLarge` error at the post-value input),
propagate `Incomplete`, stop on `Error`.  The fuel only bounds the recursion;
with initial fuel 17 and an empty accumulator the `0` case is unreachable. -/
def cosemLoop : Nat → List Nat → List (List Nat) → PR (List (List Nat))
  | 0, inp, _ => .err inp .tooLarge
  | fuel + 1, inp, acc =>
    match cosemP inp with
    | .ok next c =>
      if acc.length = 16 then .err next .tooLarge
      else cosemLoop fuel next (acc ++ [c])
    | .incomplete => .incomplete
    | .err _ _ => .ok inp acc

/-- `fn raw_line`: OBIS code, COSEM loop, terminating `\r\n`. -/
def rawLineP : List Nat → PR RawLine :=
  pbind obisP fun obis =>
  pbind (fun s1 => cosemLoop 17 s1 []) fun cs =>
  pbind crlfP fun _ =>
  pret ⟨obis, cs⟩

/-- Cosem-decoder result: no remaining input is reported to the caller
(`map_cosem` discards it). -/
inductive DR (α : Type) where
  | ok : α → DR α
  | err : List Nat → ErrKind → DR α
  | incomplete : DR α
deriving DecidableEq, Repr

/-- `map_cosem`: fetch COSEM field 0 (missing field: `NonEmpty` error whose
input is the empty string), run the decoder on it, discard its remaining. -/
def mapCosem {α : Type} (cs : List (List Nat)) (dec : List Nat → PR α) : DR α :=
  match cs.get? 0 with
  | none => .err [] .nonEmpty
  | some c =>
    match dec c with
    | .ok _ v => .ok v
    | .err i k => .err i k
    | .incomplete => .incomplete

def DR.mapD {α β : Type} : DR α → (α → β) → DR β
  | .ok v, f => .ok (f v)
  | .err i k, _ => .err i k
  | .incomplete, _ => .incomplete

/-- The OBIS dispatch match of `fn line`, in source order.  The tariff
patterns `[1,0,1,8,tariff,255]` / `[1,0,2,8,tariff,255]` bind group E. -/
def decodeLine (o : Obis) (cs : List (List Nat)) : DR Line :=
  if o.a = 1 ∧ o.b = 3 ∧ o.c = 0 ∧ o.d = 2 ∧ o.e = 8 ∧ o.f = 255 then
    (mapCosem cs (u8c 2)).mapD Line.version
  else if o.a = 0 ∧ o.b = 0 ∧ o.c = 1 ∧ o.d = 0 ∧ o.e = 0 ∧ o.f = 255 then
    (mapCosem cs timestampP).mapD Line.timestamp
  else if o.a = 0 ∧ o.b = 0 ∧ o.c = 96 ∧ o.d = 1 ∧ o.e = 1 ∧ o.f = 255 then
    .ok .equipmentId
  else if o.a = 1 ∧ o.b = 0 ∧ o.c = 1 ∧ o.d = 8 ∧ o.f = 255 then
    (mapCosem cs (fixedPoint 6 3)).mapD (Line.consumed o.e)
  else if o.a = 1 ∧ o.b = 0 ∧ o.c = 2 ∧ o.d = 8 ∧ o.f = 255 then
    (mapCosem cs (fixedPoint 6 3)).mapD (Line.produced o.e)
  else if o.a = 0 ∧ o.b = 0 ∧ o.c = 96 ∧ o.d = 14 ∧ o.e = 0 ∧ o.f = 255 then
    (mapCosem cs (u8c 4)).mapD Line.activeTariff
  else if o.a = 1 ∧ o.b = 0 ∧ o.c = 1 ∧ o.d = 7 ∧ o.e = 0 ∧ o.f = 255 then
    (mapCosem cs (fixedPoint 2 3)).mapD Line.totalConsuming
  else if o.a = 1 ∧ o.b = 0 ∧ o.c = 2 ∧ o.d = 7 ∧ o.e = 0 ∧ o.f = 255 then
    (mapCosem cs (fixedPoint 2 3)).mapD Line.totalProducing
  else if o.a = 0 ∧ o.b = 0 ∧ o.c = 96 ∧ o.d = 7 ∧ o.e = 21 ∧ o.f = 255 then
    (mapCosem cs (u32c 5)).mapD Line.powerFailures
  else if o.a = 0 ∧ o.b = 0 ∧ o.c = 96 ∧ o.d = 7 ∧ o.e = 9 ∧ o.f = 255 then
    (mapCosem cs (u32c 5)).mapD Line.longPowerFailures
  else if o.a = 1 ∧ o.b = 0 ∧ o.c = 99 ∧ o.d = 97 ∧ o.e = 0 ∧ o.f = 255 then
    .ok .powerFailureLog
  else if o.a = 1 ∧ o.b = 0 ∧ o.c = 32 ∧ o.d = 32 ∧ o.e = 0 ∧ o.f = 255 then
    (mapCosem cs (u32c 5)).mapD Line.voltageSags
  else if o.a = 1 ∧ o.b = 0 ∧ o.c = 32 ∧ o.d = 36 ∧ o.e = 0 ∧ o.f = 255 then
    (mapCosem cs (u32c 5)).mapD Line.voltageSwells
  else if o.a = 1 ∧ o.b = 0 ∧ o.c = 31 ∧ o.d = 7 ∧ o.e = 0 ∧ o.f = 255 then
    (mapCosem cs (u32c 3)).mapD (Line.current .l1)
  else if o.a = 1 ∧ o.b = 0 ∧ o.c = 21 ∧ o.d = 7 ∧ o.e = 0 ∧ o.f = 255 then
    (mapCosem cs (fixedPoint 2 3)).mapD (Line.producing .l1)
  else if o.a = 1 ∧ o.b = 0 ∧ o.c = 22 ∧ o.d = 7 ∧ o.e = 0 ∧ o.f = 255 then
    (mapCosem cs (fixedPoint 2 3)).mapD (Line.consuming .l1)
  else .ok (.unknownObis o)

/-- Inject a cosem-decoder result back into a parser that consumes nothing. -/
def liftDR {α : Type} (d : DR α) (s : List Nat) : PR α :=
  match d with
  | .ok v => .ok s v
  | .err i k => .err i k
  | .incomplete => .incomplete

/-- `fn line`: a raw line, then OBIS dispatch. -/
def lineP : List Nat → PR Line :=
  pbind rawLineP fun raw => liftDR (decodeLine raw.obis raw.cosem)

/-- `fn device_id`: `delimited(tag("/"), take_until("\r\n"), pair(crlf, crlf))`. -/
def deviceIdP : List Nat → PR (List Nat) :=
  pbind (tagK [47] .tag) fun _ =>
  pbind (takeUntilP crlfB) fun id =>
  pbind crlfP fun _ =>
  pbind crlfP fun _ =>
  pret id

/-- `fn hex_val`. -/
def hexVal (c : Nat) : Option Nat :=
  if 65 ≤ c ∧ c ≤ 70 then some (c - 65 + 10)
  else if 97 ≤ c ∧ c ≤ 102 then some (c - 97 + 10)
  else if 48 ≤ c ∧ c ≤ 57 then some (c - 48)
  else none

/-- `fn decode_hex` with a 2-byte output buffer.  `data[2*i]` / `data[2*i+1]`
are unchecked slice indexes: `none` models the out-of-bounds panic, reachable
when fewer than 4 bytes are present. -/
def decodeHex2 (ds : List Nat) : Option (Except ErrKind (Nat × Nat)) :=
  match ds.get? 0 with
  | none => none
  | some a =>
    match hexVal a with
    | none => some (.error .hexDigit)
    | some va =>
      match ds.get? 1 with
      | none => none
      | some b =>
        match hexVal b with
        | none => some (.error .hexDigit)
        | some vb =>
          match ds.get? 2 with
          | none => none
          | some c =>
            match hexVal c with
            | none => some (.error .hexDigit)
            | some vc =>
              match ds.get? 3 with
              | none => none
              | some d =>
                match hexVal d with
                | none => some (.error .hexDigit)
                | some vd =>
                  some (.ok ((va <<< 4) ||| vb, (vc <<< 4) ||| vd))

/-- The pure-parser part of `fn crc`: `delimited(tag("!"), hex_digit1, crlf)`. -/
def crcPre : List Nat → PR (List Nat) :=
  pbind (tagK [33] .tag) fun _ =>
  pbind hexDigit1P fun ds =>
  pbind crlfP fun _ =>
  pret ds

/-- `fn crc` (the checksum-trailer parser): `!`, 1+ hex digits, `\r\n`, then
`decode_hex` into two bytes combined big-endian.  The `Option` layer carries
the `decode_hex` panic. -/
def crcP (s : List Nat) : Option (PR Nat) :=
  match crcPre s with
  | .err i k => some (.err i k)
  | .incomplete => some .incomplete
  | .ok s3 ds =>
    match decodeHex2 ds with
    | none => none
    | some (.error k) => some (.err ds k)
    | some (.ok (b0, b1)) => some (.ok s3 ((b0 <<< 8) ||| b1))

/-- The body loop of `fn telegram`: try `opt(crc)` (`Incomplete` propagates
through `opt`), otherwise parse one line and push it (capacity 32, a failed
`try_push` is a `TooLarge` error at the post-device-id input `errInp`).
With initial fuel 33 and an empty accumulator the `0` case is unreachable. -/
def telLoop : Nat → List Nat → List Nat → List Line → Option (PR (List Line × Nat))
  | 0, errInp, _, _ => some (.err errInp .tooLarge)
  | fuel + 1, errInp, inp, acc =>
    match crcP inp with
    | none => none
    | some .incomplete => some .incomplete
    | some (.ok next c) => some (.ok next (acc, c))
    | some (.err _ _) =>
      match lineP inp with
      | .ok next l =>
        if acc.length = 32 then some (.err errInp .tooLarge)
        else telLoop fuel errInp next (acc ++ [l])
      | .err i k => some (.err i k)
      | .incomplete => some .incomplete

/-- `fn telegram`: device id (at most 32 bytes, else `TooLarge` at the
post-device-id input), then the body loop. -/
def telegramP (s : List Nat) : Option (PR Telegram) :=
  match deviceIdP s with
  | .err i k => some (.err i k)
  | .incomplete => some .incomplete
  | .ok s1 id =>
    if 32 < id.length then some (.err s1 .tooLarge)
    else
      match telLoop 33 s1 s1 [] with
      | none => none
      | some (.ok rem (ls, c)) => some (.ok rem ⟨id, ls, c⟩)
      | some (.err i k) => some (.err i k)
      | some .incomplete => some .incomplete

/-- One CRC-16 round of `fn crc16`: shift right; XOR `0xA001` when the low
bit was set. -/
def crc16round (c : Nat) : Nat :=
  if c % 2 = 1 then (c / 2) ^^^ 0xA001 else c / 2

def crc16rounds : Nat → Nat → Nat
  | 0, c => c
  | n + 1, c => crc16rounds n (crc16round c)

/-- `fn crc16`: initial value 0; XOR each byte into the state, then 8 rounds. -/
def crc16 (data : List Nat) : Nat :=
  data.foldl (fun c b => crc16rounds 8 (c ^^^ b)) 0

/-- Result of `core::str::from_utf8`: `valid`, or the first error's
`valid_up_to` and `error_len` (`none` when the input ends inside a sequence
that could still become valid). -/
inductive Utf8Res where
  | valid
  | invalid (validUpTo : Nat) (errorLen : Option Nat)
deriving DecidableEq, Repr

/-- UTF-8 continuation byte (`b as i8 < -64` in the Rust validator). -/
def contB (b : Nat) : Bool := 128 ≤ b && b ≤ 191

/-- One-byte (ASCII) first byte. -/
def asciiB (b : Nat) : Bool := b ≤ 127

/-- First byte of a two-byte sequence (`utf8_char_width` = 2). -/
def width2B (b : Nat) : Bool := 194 ≤ b && b ≤ 223

/-- First byte of a three-byte sequence (`utf8_char_width` = 3). -/
def width3B (b : Nat) : Bool := 224 ≤ b && b ≤ 239

/-- First byte of a four-byte sequence (`utf8_char_width` = 4). -/
def width4B (b : Nat) : Bool := 240 ≤ b && b ≤ 244

/-- Allowed second byte of a 3- or 4-byte sequence, per first byte
(the table in `core::str::validations::run_utf8_validation`). -/
def utf8SecondOk (b b2 : Nat) : Bool :=
  if b == 224 then 160 ≤ b2 && b2 ≤ 191
  else if b ≤ 236 then contB b2
  else if b == 237 then 128 ≤ b2 && b2 ≤ 159
  else if b ≤ 239 then contB b2
  else if b == 240 then 144 ≤ b2 && b2 ≤ 191
  else if b ≤ 243 then contB b2
  else 128 ≤ b2 && b2 ≤ 143

/-- `run_utf8_validation`: `pos` is the index of the current sequence start. -/
def utf8Go : List Nat → Nat → Utf8Res
  | [], _ => .valid
  | b :: rest, pos =>
    if asciiB b then utf8Go rest (pos + 1)
    else if width2B b then
      match rest with
      | [] => .invalid pos none
      | b2 :: rest2 =>
        if contB b2 then utf8Go rest2 (pos + 2) else .invalid pos (some 1)
    else if width3B b then
      match rest with
      | [] => .invalid pos none
      | b2 :: rest2 =>
        if utf8SecondOk b b2 then
          match rest2 with
          | [] => .invalid pos none
          | b3 :: rest3 =>
            if contB b3 then utf8Go rest3 (pos + 3) else .invalid pos (some 2)
        else .invalid pos (some 1)
    else if width4B b then
      match rest with
      | [] => .invalid pos none
      | b2 :: rest2 =>
        if utf8SecondOk b b2 then
          match rest2 with
          | [] => .invalid pos none
          | b3 :: rest3 =>
            if contB b3 then
              match rest3 with
              | [] => .invalid pos none
              | b4 :: rest4 =>
                if contB b4 then utf8Go rest4 (pos + 4) else .invalid pos (some 3)
            else .invalid pos (some 2)
        else .invalid pos (some 1)
    else .invalid pos (some 1)

def utf8Status (s : List Nat) : Utf8Res := utf8Go s 0

/-- `fn parse`: UTF-8 gate, framer, CRC check over all bytes up to 6 before
the end of the telegram span.  `none` models a panic. -/
def parse (input : List Nat) :
    Option (Nat × Except TelegramParseError Telegram) :=
  match utf8Status input with
  | .invalid v el =>
    some ((el.map (fun e => e + v)).getD 0, .error .invalidUtf8)
  | .valid =>
    match telegramP input with
    | none => none
    | some (.ok rem t) =>
      let len := input.length - rem.length
      let c := crc16 (input.take (len - 6))
      some (len, if t.crc ≠ c then .error (.crcMismatch c t.crc) else .ok t)
    | some .incomplete => some (0, .error .incomplete)
    | some (.err i k) =>
      some (1, .error (.parseError (input.length - i.length) k))

/-- The telegram byte span recognized by the framer, when it succeeds. -/
def telSpan (s : List Nat) : Option Nat :=
  match telegramP s with
  | some (.ok rem _) => some (s.length - rem.length)
  | _ => none

/-! ## Streaming-monotonicity properties

A nom streaming parser, when it succeeds, behaves the same on any extension
of its input (`MOk`), still fails on any extension when it fails structurally
(`MErr`), and returns a suffix of its input as the remaining input (`SOk`).
These are the invariants behind the incomplete-prefix property of `parse`. -/

/-- Success is stable under extending the input; the extension is appended
to the remaining input and the value is unchanged. -/
def MOk {α : Type} (p : List Nat → PR α) : Prop :=
  ∀ s t rem v, p s = .ok rem v → p (s ++ t) = .ok (rem ++ t) v

/-- A structural error persists (as some structural error) under extending
the input. -/
def MErr {α : Type} (p : List Nat → PR α) : Prop :=
  ∀ s t i k, p s = .err i k → ∃ i2 k2, p (s ++ t) = .err i2 k2

/-- The remaining input of a success is a suffix of the input. -/
def SOk {α : Type} (p : List Nat → PR α) : Prop :=
  ∀ s rem v, p s = .ok rem v → ∃ pre, s = pre ++ rem

/-! ## The serializer (`Telegram::serialize`), writer output as `List Char` -/

/-- Decimal rendering of an unsigned integer (Rust `Display`). -/
def natChars (n : Nat) : List Char := (Nat.repr n).data

/-- `{:0w}` zero-padded formatting of an unsigned integer. -/
def padZ (w n : Nat) : List Char := List.replicate (w - (natChars n).length) '0' ++ natChars n

/-- `Display for Phase`. -/
def phaseChars : Phase → List Char
  | .l1 => "l1".data
  | .l2 => "l2".data
  | .l3 => "l3".data

/-- `Display for Timestamp`:
`{:04}-{:02}-{:02}T{:02}:{:02}:{:02}` then `+02:00` (DST) or `+01:00`. -/
def tsChars (t : Ts) : List Char :=
  padZ 4 t.year ++ "-".data ++ padZ 2 t.month ++ "-".data ++ padZ 2 t.day ++
  "T".data ++ padZ 2 t.hour ++ ":".data ++ padZ 2 t.minute ++ ":".data ++
  padZ 2 t.second ++ (if t.dst then "+02:00".data else "+01:00".data)

/-- The text a `Line` contributes after the separator; `none` for the
variants the `_` arm of `serialize` skips (`EquipmentId`, `PowerFailureLog`,
`UnknownObis`). -/
def emitField : Line → Option (List Char)
  | .version v => some ("\"dsmr_version\": ".data ++ natChars v)
  | .timestamp ts => some ("\"timestamp\": \"".data ++ tsChars ts ++ "\"".data)
  | .consumed t p => some ("\"tariff_".data ++ natChars t ++ "_consumed\": ".data ++ natChars p)
  | .produced t p => some ("\"tariff_".data ++ natChars t ++ "_produced\": ".data ++ natChars p)
  | .activeTariff t => some ("\"active_tariff\": ".data ++ natChars t)
  | .totalConsuming p => some ("\"total_consuming\": ".data ++ natChars p)
  | .totalProducing p => some ("\"total_producing\": ".data ++ natChars p)
  | .powerFailures c => some ("\"power_failures\": ".data ++ natChars c)
  | .longPowerFailures c => some ("\"long_power_failures\": ".data ++ natChars c)
  | .voltageSags c => some ("\"voltage_sags\": ".data ++ natChars c)
  | .voltageSwells c => some ("\"voltage_swells\": ".data ++ natChars c)
  | .current ph c => some ("\"".data ++ phaseChars ph ++ "_current\": ".data ++ natChars c)
  | .consuming ph p => some ("\"".data ++ phaseChars ph ++ "_consuming\": ".data ++ natChars p)
  | .producing ph p => some ("\"".data ++ phaseChars ph ++ "_producing\": ".data ++ natChars p)
  | .equipmentId => none
  | .powerFailureLog => none
  | .unknownObis _ => none

/-- The loop of `serialize`: each arm writes `separator` then its field (the
skipped variants write nothing), and `separator` becomes `","` after every
iteration, emitted or not. -/
def serializeLines (sep : List Char) : List Line → List Char
  | [] => []
  | l :: rest =>
    (match emitField l with
     | some f => sep ++ f
     | none => []) ++ serializeLines [','] rest

/-- `Telegram::serialize`: the fields between `{` and `}`. -/
def serialize (t : Telegram) : List Char :=
  "\x7b".data ++ serializeLines [] t.lines ++ "\x7d".data

/-! ## Statement-side definitions -/

/-- One CRC-16/ARC round as the spec words it: if the low bit is set, shift
right and XOR `0xA001`, else shift right. -/
def crcArcRound (c : Nat) : Nat :=
  if Nat.testBit c 0 then (c >>> 1) ^^^ 0xA001 else c >>> 1

/-- CRC-16/ARC as the spec words it: initial state 0; for each byte, XOR the
byte into the low byte of the state, then 8 rounds; no final XOR. -/
def crcArc (data : List Nat) : Nat :=
  data.foldl (fun st b => crcArcRound^[8] (st ^^^ b)) 0

/-- The OBIS codes covered by the dispatch table of `fn line`, one disjunct
per non-default match arm, in source order. -/
def dispatched (o : Obis) : Prop :=
  (o.a = 1 ∧ o.b = 3 ∧ o.c = 0 ∧ o.d = 2 ∧ o.e = 8 ∧ o.f = 255) ∨
  (o.a = 0 ∧ o.b = 0 ∧ o.c = 1 ∧ o.d = 0 ∧ o.e = 0 ∧ o.f = 255) ∨
  (o.a = 0 ∧ o.b = 0 ∧ o.c = 96 ∧ o.d = 1 ∧ o.e = 1 ∧ o.f = 255) ∨
  (o.a = 1 ∧ o.b = 0 ∧ o.c = 1 ∧ o.d = 8 ∧ o.f = 255) ∨
  (o.a = 1 ∧ o.b = 0 ∧ o.c = 2 ∧ o.d = 8 ∧ o.f = 255) ∨
  (o.a = 0 ∧ o.b = 0 ∧ o.c = 96 ∧ o.d = 14 ∧ o.e = 0 ∧ o.f = 255) ∨
  (o.a = 1 ∧ o.b = 0 ∧ o.c = 1 ∧ o.d = 7 ∧ o.e = 0 ∧ o.f = 255) ∨
  (o.a = 1 ∧ o.b = 0 ∧ o.c = 2 ∧ o.d = 7 ∧ o.e = 0 ∧ o.f = 255) ∨
  (o.a = 0 ∧ o.b = 0 ∧ o.c = 96 ∧ o.d = 7 ∧ o.e = 21 ∧ o.f = 255) ∨
  (o.a = 0 ∧ o.b = 0 ∧ o.c = 96 ∧ o.d = 7 ∧ o.e = 9 ∧ o.f = 255) ∨
  (o.a = 1 ∧ o.b = 0 ∧ o.c = 99 ∧ o.d = 97 ∧ o.e = 0 ∧ o.f = 255) ∨
  (o.a = 1 ∧ o.b = 0 ∧ o.c = 32 ∧ o.d = 32 ∧ o.e = 0 ∧ o.f = 255) ∨
  (o.a = 1 ∧ o.b = 0 ∧ o.c = 32 ∧ o.d = 36 ∧ o.e = 0 ∧ o.f = 255) ∨
  (o.a = 1 ∧ o.b = 0 ∧ o.c = 31 ∧ o.d = 7 ∧ o.e = 0 ∧ o.f = 255) ∨
  (o.a = 1 ∧ o.b = 0 ∧ o.c = 21 ∧ o.d = 7 ∧ o.e = 0 ∧ o.f = 255) ∨
  (o.a = 1 ∧ o.b = 0 ∧ o.c = 22 ∧ o.d = 7 ∧ o.e = 0 ∧ o.f = 255)

/-- Comma-separated join, no leading or trailing comma (the output shape the
spec claims for the fields of `serialize`). -/
def joinSep : List (List Char) → List Char
  | [] => []
  | [x] => x
  | x :: y :: r => x ++ [','] ++ joinSep (y :: r)

/-- The first line (if any) is one of the emitted variants. -/
def headEmitted : List Line → Bool
  | [] => true
  | l :: _ => (emitField l).isSome

/-- Input whose checksum trailer has a single hex digit: `decode_hex` then
reads `data[1]` out of bounds. -/
def panicInput : List Nat := strBytes "/X\r\n\r\n!A\r\n"

/-- A structurally well-formed telegram whose trailer reads `0x0000` while
the computed CRC is `0xB8AA`. -/
def mismatchInput : List Nat := strBytes "/X\r\n\r\n!0000\r\n"

/-- A well-formed (framing and CRC) all-ASCII telegram. -/
def wfInput : List Nat := strBytes "/X\r\n\r\n!B8AA\r\n"

/-- A well-formed (framing and CRC) telegram whose device id is the two-byte
UTF-8 sequence `0xC3 0xA9`. -/
def nonAsciiTelegram : List Nat :=
  [47, 195, 169, 13, 10, 13, 10] ++ strBytes "!0FD0\r\n"

/-- A telegram value whose first line is a skipped variant. -/
def skipFirstTelegram : Telegram := ⟨strBytes "X", [.equipmentId, .version 42], 0⟩

/-- A telegram value whose first line is an emitted variant and which also
contains a skipped line. -/
def emitFirstTelegram : Telegram :=
  ⟨strBytes "X", [.version 42, .equipmentId, .activeTariff 1], 0⟩

/-! ## Helper lemmas -/

theorem crc16round_eq_arcRound : crc16round = crcArcRound := by
  funext c
  unfold crc16round crcArcRound
  rw [Nat.testBit_zero, Nat.shiftRight_one]
  rcases Nat.mod_two_eq_zero_or_one c with h | h <;> simp [h]

theorem crc16rounds_eq_iterate (n c : Nat) : crc16rounds n c = crcArcRound^[n] c := by
  induction n generalizing c with
  | zero => rfl
  | succ n ih =>
    show crc16rounds n (crc16round c) = crcArcRound^[n + 1] c
    rw [Function.iterate_succ_apply, ih, crc16round_eq_arcRound]

theorem crc16_eq_crcArc (data : List Nat) : crc16 data = crcArc data := by
  unfold crc16 crcArc
  congr 1
  funext c b
  rw [crc16rounds_eq_iterate]

theorem takeWhile_append_all {p : Nat → Bool} (I rest : List Nat)
    (h : ∀ b ∈ I, p b = true) :
    (I ++ rest).takeWhile p = I ++ rest.takeWhile p := by
  induction I with
  | nil => simp
  | cons b bs ih =>
    have hb : p b = true := h b (by simp)
    have ih2 := ih (fun x hx => h x (by simp [hx]))
    simp [List.takeWhile_cons, hb, ih2]

theorem twmnS_exact (p : Nat → Bool) (d : Nat) (I rest : List Nat)
    (hlen : I.length = d) (hd : ∀ b ∈ I, p b = true)
    (hstop : rest.takeWhile p = []) (hne : rest ≠ []) :
    twmnS d d p (I ++ rest) = .ok rest I := by
  have hj : ((I ++ rest).takeWhile p).length = d := by
    rw [takeWhile_append_all I rest hd, hstop, List.append_nil, hlen]
  have hlt : ¬ ((I ++ rest).takeWhile p).length = (I ++ rest).length := by
    rw [hj, List.length_append, hlen]
    intro hcontra
    have hr0 : rest.length = 0 := by omega
    exact hne (List.length_eq_zero.mp hr0)
  unfold twmnS
  rw [if_neg hlt, if_pos (by rw [hj]), hj, Nat.min_self, ← hlen, List.drop_left,
    List.take_left]

theorem twmnS_all (p : Nat → Bool) (d : Nat) (F : List Nat)
    (hlen : F.length = d) (hd : ∀ b ∈ F, p b = true) :
    twmnS d d p F = .ok [] F := by
  have htw : F.takeWhile p = F := by
    have h2 := takeWhile_append_all F [] hd
    simpa using h2
  unfold twmnS
  rw [if_pos (by rw [htw]), if_pos (by rw [hlen]), ← hlen, List.drop_length,
    List.take_length]

theorem parseU32_digits (bs : List Nat) (hne : bs ≠ [])
    (hd : ∀ b ∈ bs, isDigitB b = true) (hlt : valNat bs < 4294967296) :
    parseU32 bs = some (valNat bs) := by
  unfold parseU32
  rw [if_neg (by simpa [List.isEmpty_iff] using hne),
    if_pos (List.all_eq_true.mpr hd), if_pos hlt]

theorem decodeLine_unknown (o : Obis) (cs : List (List Nat))
    (h : ¬ dispatched o) : decodeLine o cs = .ok (.unknownObis o) := by
  unfold decodeLine
  rw [if_neg (fun hc => h (Or.inl hc)),
    if_neg (fun hc => h (Or.inr (Or.inl hc))),
    if_neg (fun hc => h (Or.inr (Or.inr (Or.inl hc)))),
    if_neg (fun hc => h (Or.inr (Or.inr (Or.inr (Or.inl hc))))),
    if_neg (fun hc => h (Or.inr (Or.inr (Or.inr (Or.inr (Or.inl hc)))))),
    if_neg (fun hc => h (Or.inr (Or.inr (Or.inr (Or.inr (Or.inr (Or.inl hc))))))),
    if_neg (fun hc => h (Or.inr (Or.inr (Or.inr (Or.inr (Or.inr (Or.inr (Or.inl hc)))))))),
    if_neg (fun hc => h (Or.inr (Or.inr (Or.inr (Or.inr (Or.inr (Or.inr (Or.inr (Or.inl hc))))))))),
    if_neg (fun hc => h (Or.inr (Or.inr (Or.inr (Or.inr (Or.inr (Or.inr (Or.inr (Or.inr (Or.inl hc)))))))))),
    if_neg (fun hc => h (Or.inr (Or.inr (Or.inr (Or.inr (Or.inr (Or.inr (Or.inr (Or.inr (Or.inr (Or.inl hc))))))))))),
    if_neg (fun hc => h (Or.inr (Or.inr (Or.inr (Or.inr (Or.inr (Or.inr (Or.inr (Or.inr (Or.inr (Or.inr (Or.inl hc)))))))))))),
    if_neg (fun hc => h (Or.inr (Or.inr (Or.inr (Or.inr (Or.inr (Or.inr (Or.inr (Or.inr (Or.inr (Or.inr (Or.inr (Or.inl hc))))))))))))),
    if_neg (fun hc => h (Or.inr (Or.inr (Or.inr (Or.inr (Or.inr (Or.inr (Or.inr (Or.inr (Or.inr (Or.inr (Or.inr (Or.inr (Or.inl hc)))))))))))))),
    if_neg (fun hc => h (Or.inr (Or.inr (Or.inr (Or.inr (Or.inr (Or.inr (Or.inr (Or.inr (Or.inr (Or.inr (Or.inr (Or.inr (Or.inr (Or.inl hc))))))))))))))),
    if_neg (fun hc => h (Or.inr (Or.inr (Or.inr (Or.inr (Or.inr (Or.inr (Or.inr (Or.inr (Or.inr (Or.inr (Or.inr (Or.inr (Or.inr (Or.inr (Or.inl hc)))))))))))))))),
    if_neg (fun hc => h (Or.inr (Or.inr (Or.inr (Or.inr (Or.inr (Or.inr (Or.inr (Or.inr (Or.inr (Or.inr (Or.inr (Or.inr (Or.inr (Or.inr (Or.inr hc))))))))))))))))]

theorem serializeLines_comma (ls : List Line) :
    serializeLines [','] ls =
      (ls.filterMap emitField).foldr (fun f a => [','] ++ f ++ a) [] := by
  induction ls with
  | nil => rfl
  | cons l rest ih =>
    cases he : emitField l with
    | some f => simp [serializeLines, he, ih, List.filterMap_cons]
    | none => simp [serializeLines, he, ih, List.filterMap_cons]

theorem joinSep_cons_foldr (x : List Char) (xs : List (List Char)) :
    joinSep (x :: xs) = x ++ xs.foldr (fun f a => [','] ++ f ++ a) [] := by
  induction xs generalizing x with
  | nil => simp [joinSep]
  | cons y r ih => simp [joinSep, ih y]

theorem utf8Go_invalid_le (s : List Nat) (pos : Nat) :
    ∀ v e, utf8Go s pos = .invalid v (some e) → v + e ≤ pos + s.length := by
  induction s, pos using utf8Go.induct <;> intro v e h <;>
    rw [utf8Go.eq_def] at h <;> simp_all <;> omega

/-! ### Byte-prefix and search lemmas -/

theorem pfx_iff (a b : List Nat) : pfx a b = true ↔ ∃ c, b = a ++ c := by
  induction a generalizing b with
  | nil => simp [pfx]
  | cons x xs ih =>
    cases b with
    | nil => simp [pfx]
    | cons y ys =>
      rw [pfx]
      simp only [Bool.and_eq_true, beq_iff_eq, ih ys]
      constructor
      · rintro ⟨rfl, c, rfl⟩
        exact ⟨c, rfl⟩
      · rintro ⟨c, hc⟩
        injection hc with h1 h2
        exact ⟨h1.symm, c, h2⟩

theorem pfx_refl (a : List Nat) : pfx a a = true :=
  (pfx_iff a a).mpr ⟨[], by simp⟩

theorem pfx_append_right (a b t : List Nat) (h : pfx a b = true) :
    pfx a (b ++ t) = true := by
  obtain ⟨c, rfl⟩ := (pfx_iff a b).mp h
  exact (pfx_iff _ _).mpr ⟨c ++ t, by simp⟩

theorem pfx_length_le (a b : List Nat) (h : pfx a b = true) : a.length ≤ b.length := by
  obtain ⟨c, rfl⟩ := (pfx_iff a b).mp h
  simp

theorem pfx_self_append (a t : List Nat) : pfx a (a ++ t) = true :=
  (pfx_iff _ _).mpr ⟨t, rfl⟩

theorem pfx_eq_of_le (a b : List Nat) (h : pfx a b = true) (hle : b.length ≤ a.length) :
    a = b := by
  obtain ⟨c, rfl⟩ := (pfx_iff a b).mp h
  rw [List.length_append] at hle
  have hc : c = [] := List.length_eq_zero.mp (by omega)
  simp [hc]

theorem pfx_of_pfx_le (a b c : List Nat) (ha : pfx a c = true) (hb : pfx b c = true)
    (hle : a.length ≤ b.length) : pfx a b = true := by
  obtain ⟨u, rfl⟩ := (pfx_iff a c).mp ha
  obtain ⟨w, hw⟩ := (pfx_iff b (a ++ u)).mp hb
  refine (pfx_iff a b).mpr ⟨b.drop a.length, ?_⟩
  have htake : b.take a.length = a := by
    have h1 : (a ++ u).take a.length = a := List.take_left a u
    have h2 : (a ++ u).take a.length = (b ++ w).take a.length := by rw [hw]
    have h3 : (b ++ w).take a.length = b.take a.length :=
      List.take_append_of_le_length hle
    rw [h2, h3] at h1
    exact h1
  calc b = b.take a.length ++ b.drop a.length := (List.take_append_drop _ b).symm
  _ = a ++ b.drop a.length := by rw [htake]

theorem pfx_comparable (a b c : List Nat) (ha : pfx a c = true) (hb : pfx b c = true) :
    pfx a b = true ∨ pfx b a = true := by
  rcases Nat.le_total a.length b.length with hle | hle
  · exact Or.inl (pfx_of_pfx_le a b c ha hb hle)
  · exact Or.inr (pfx_of_pfx_le b a c hb ha hle)

theorem pfx_false_of_le (a b t : List Nat) (h : pfx a b = false)
    (hle : a.length ≤ b.length) : pfx a (b ++ t) = false := by
  cases hv : pfx a (b ++ t) with
  | false => rfl
  | true =>
    exfalso
    rcases pfx_comparable a b (b ++ t) hv (pfx_self_append b t) with h1 | h1
    · rw [h1] at h
      exact Bool.noConfusion h
    · have heq : b = a := pfx_eq_of_le b a h1 hle
      subst heq
      rw [pfx_refl b] at h
      exact Bool.noConfusion h

theorem pfx_false_of_both (t : List Nat) : ∀ s ext, pfx t s = false → pfx s t = false →
    pfx t (s ++ ext) = false ∧ pfx (s ++ ext) t = false := by
  induction t with
  | nil =>
    intro s ext h1 _
    rw [pfx] at h1
    exact Bool.noConfusion h1
  | cons t0 ts ih =>
    intro s ext h1 h2
    cases s with
    | nil =>
      rw [pfx] at h2
      exact Bool.noConfusion h2
    | cons s0 ss =>
      rw [List.cons_append]
      by_cases he : t0 = s0
      · subst he
        rw [pfx, Bool.and_eq_false_iff] at h1 h2
        have h1b : pfx ts ss = false := by
          rcases h1 with h | h
          · simp at h
          · exact h
        have h2b : pfx ss ts = false := by
          rcases h2 with h | h
          · simp at h
          · exact h
        obtain ⟨ha, hb⟩ := ih ss ext h1b h2b
        constructor
        · rw [pfx, ha, Bool.and_false]
        · rw [pfx, hb, Bool.and_false]
      · constructor
        · rw [pfx, beq_eq_false_iff_ne.mpr he, Bool.false_and]
        · rw [pfx, beq_eq_false_iff_ne.mpr (Ne.symm he), Bool.false_and]

/-! ### findSub lemmas -/

theorem findSub_le (n : List Nat) : ∀ s j, findSub n s = some j →
    j + n.length ≤ s.length := by
  intro s
  induction s with
  | nil =>
    intro j h
    rw [findSub] at h
    by_cases hp : pfx n [] = true
    · rw [if_pos hp] at h
      injection h with h1
      subst h1
      simpa using pfx_length_le n [] hp
    · rw [if_neg hp] at h
      exact Option.noConfusion h
  | cons b rest ih =>
    intro j h
    rw [findSub] at h
    by_cases hp : pfx n (b :: rest) = true
    · rw [if_pos hp] at h
      injection h with h1
      subst h1
      simpa using pfx_length_le n (b :: rest) hp
    · rw [if_neg hp] at h
      obtain ⟨j2, hj2, rfl⟩ := Option.map_eq_some'.mp h
      have := ih j2 hj2
      simp only [List.length_cons]
      omega

theorem findSub_mono (n : List Nat) : ∀ s ext j, findSub n s = some j →
    findSub n (s ++ ext) = some j := by
  intro s
  induction s with
  | nil =>
    intro ext j h
    rw [findSub] at h
    by_cases hp : pfx n [] = true
    · rw [if_pos hp] at h
      injection h with h1
      subst h1
      have hn : n = [] := by
        obtain ⟨c, hc⟩ := (pfx_iff n []).mp hp
        cases n with
        | nil => rfl
        | cons x xs => exact List.noConfusion hc
      subst hn
      cases ext with
      | nil => rfl
      | cons e es =>
        rw [List.nil_append, findSub, if_pos (by rw [pfx])]
    · rw [if_neg hp] at h
      exact Option.noConfusion h
  | cons b rest ih =>
    intro ext j h
    rw [findSub] at h
    rw [List.cons_append, findSub]
    by_cases hp : pfx n (b :: rest) = true
    · rw [if_pos hp] at h
      rw [if_pos (by
        have := pfx_append_right n (b :: rest) ext hp
        rw [List.cons_append] at this
        exact this)]
      exact h
    · rw [if_neg hp] at h
      obtain ⟨j2, hj2, rfl⟩ := Option.map_eq_some'.mp h
      have hlen : n.length ≤ (b :: rest).length := by
        have := findSub_le n rest j2 hj2
        simp only [List.length_cons]
        omega
      have hfalse : pfx n ((b :: rest) ++ ext) = false :=
        pfx_false_of_le n (b :: rest) ext (by
          cases hv : pfx n (b :: rest) with
          | false => rfl
          | true => exact absurd hv hp) hlen
      rw [List.cons_append] at hfalse
      rw [if_neg (by rw [hfalse]; exact Bool.noConfusion), ih ext j2 hj2]
      rfl

/-! ### takeWhile / dropWhile extension lemmas -/

theorem dropWhile_ne_nil_append (p : Nat → Bool) : ∀ (s ext : List Nat), s.dropWhile p ≠ [] →
    (s ++ ext).takeWhile p = s.takeWhile p ∧
    (s ++ ext).dropWhile p = s.dropWhile p ++ ext := by
  intro s
  induction s with
  | nil => intro ext h; simp at h
  | cons b rest ih =>
    intro ext h
    by_cases hb : p b = true
    · rw [List.dropWhile_cons, if_pos hb] at h
      obtain ⟨h1, h2⟩ := ih ext h
      simp [List.takeWhile_cons, List.dropWhile_cons, hb, h1, h2]
    · simp [List.takeWhile_cons, List.dropWhile_cons, hb]

/-! ### Monotonicity of the primitive parsers -/

theorem tagK_mok (t : List Nat) (k : ErrKind) : MOk (tagK t k) := by
  intro s ext rem v h
  unfold tagK at h ⊢
  by_cases hp : pfx t s = true
  · rw [if_pos hp] at h
    injection h with h1 h2
    subst h1
    subst h2
    rw [if_pos (pfx_append_right t s ext hp)]
    obtain ⟨c, rfl⟩ := (pfx_iff t s).mp hp
    rw [List.append_assoc, List.drop_left, List.drop_left]
  · rw [if_neg hp] at h
    split at h <;> simp at h

theorem tagK_merr (t : List Nat) (k : ErrKind) : MErr (tagK t k) := by
  intro s ext i k2 h
  unfold tagK at h
  by_cases hp : pfx t s = true
  · rw [if_pos hp] at h
    simp at h
  · rw [if_neg hp] at h
    by_cases hq : pfx s t = true
    · rw [if_pos hq] at h
      simp at h
    · refine ⟨s ++ ext, k, ?_⟩
      obtain ⟨ha, hb⟩ := pfx_false_of_both t s ext
        (by cases hv : pfx t s with
            | false => rfl
            | true => exact absurd hv hp)
        (by cases hv : pfx s t with
            | false => rfl
            | true => exact absurd hv hq)
      unfold tagK
      rw [if_neg (by rw [ha]; exact Bool.noConfusion),
        if_neg (by rw [hb]; exact Bool.noConfusion)]

theorem tagK_sok (t : List Nat) (k : ErrKind) : SOk (tagK t k) := by
  intro s rem v h
  unfold tagK at h
  by_cases hp : pfx t s = true
  · rw [if_pos hp] at h
    injection h with h1 h2
    obtain ⟨c, rfl⟩ := (pfx_iff t s).mp hp
    exact ⟨t, by rw [← h1, List.drop_left]⟩
  · rw [if_neg hp] at h
    split at h <;> simp at h

theorem takeUntilP_mok (n : List Nat) : MOk (takeUntilP n) := by
  intro s ext rem v h
  unfold takeUntilP at h ⊢
  cases hf : findSub n s with
  | none => rw [hf] at h; exact PR.noConfusion h
  | some j =>
    rw [hf] at h
    injection h with h1 h2
    rw [findSub_mono n s ext j hf]
    have hj : j ≤ s.length := by
      have := findSub_le n s j hf
      omega
    show PR.ok ((s ++ ext).drop j) ((s ++ ext).take j) = PR.ok (rem ++ ext) v
    rw [List.drop_append_of_le_length hj, List.take_append_of_le_length hj, h1, h2]

theorem takeUntilP_merr (n : List Nat) : MErr (takeUntilP n) := by
  intro s ext i k h
  unfold takeUntilP at h
  cases hf : findSub n s with
  | none => rw [hf] at h; exact PR.noConfusion h
  | some j => rw [hf] at h; exact PR.noConfusion h

theorem takeUntilP_sok (n : List Nat) : SOk (takeUntilP n) := by
  intro s rem v h
  unfold takeUntilP at h
  cases hf : findSub n s with
  | none => rw [hf] at h; exact PR.noConfusion h
  | some j =>
    rw [hf] at h
    injection h with h1 h2
    exact ⟨s.take j, by rw [← h1, List.take_append_drop]⟩

theorem span1P_mok (p : Nat → Bool) (k : ErrKind) : MOk (span1P p k) := by
  intro s ext rem v h
  unfold span1P at h ⊢
  by_cases hpost : (s.dropWhile p).isEmpty = true
  · rw [if_pos hpost] at h
    exact PR.noConfusion h
  · rw [if_neg hpost] at h
    by_cases hpre : (s.takeWhile p).isEmpty = true
    · rw [if_pos hpre] at h
      exact PR.noConfusion h
    · rw [if_neg hpre] at h
      injection h with h1 h2
      have hne : s.dropWhile p ≠ [] := by simpa [List.isEmpty_iff] using hpost
      obtain ⟨ht, hd⟩ := dropWhile_ne_nil_append p s ext hne
      rw [if_neg (by
          rw [hd, List.isEmpty_iff]
          intro hc
          exact hne (List.append_eq_nil.mp hc).1),
        if_neg (by rw [ht]; exact hpre), ht, hd, h1, h2]

theorem span1P_merr (p : Nat → Bool) (k : ErrKind) : MErr (span1P p k) := by
  intro s ext i k2 h
  unfold span1P at h
  by_cases hpost : (s.dropWhile p).isEmpty = true
  · rw [if_pos hpost] at h
    exact PR.noConfusion h
  · rw [if_neg hpost] at h
    by_cases hpre : (s.takeWhile p).isEmpty = true
    · refine ⟨s ++ ext, k, ?_⟩
      have hne : s.dropWhile p ≠ [] := by simpa [List.isEmpty_iff] using hpost
      obtain ⟨ht, hd⟩ := dropWhile_ne_nil_append p s ext hne
      unfold span1P
      rw [if_neg (by
          rw [hd, List.isEmpty_iff]
          intro hc
          exact hne (List.append_eq_nil.mp hc).1),
        if_pos (by rw [ht]; exact hpre)]
    · rw [if_neg hpre] at h
      exact PR.noConfusion h

theorem span1P_sok (p : Nat → Bool) (k : ErrKind) : SOk (span1P p k) := by
  intro s rem v h
  unfold span1P at h
  by_cases hpost : (s.dropWhile p).isEmpty = true
  · rw [if_pos hpost] at h
    exact PR.noConfusion h
  · rw [if_neg hpost] at h
    by_cases hpre : (s.takeWhile p).isEmpty = true
    · rw [if_pos hpre] at h
      exact PR.noConfusion h
    · rw [if_neg hpre] at h
      injection h with h1 h2
      exact ⟨s.takeWhile p, by rw [← h1, List.takeWhile_append_dropWhile]⟩

theorem mapResP_mok {α β : Type} (p : List Nat → PR α) (f : α → Option β)
    (hp : MOk p) : MOk (mapResP p f) := by
  intro s ext rem v h
  unfold mapResP at h ⊢
  cases hps : p s with
  | ok rem2 v2 =>
    simp only [hps] at h
    simp only [hp s ext rem2 v2 hps]
    cases hf : f v2 with
    | some w =>
      simp only [hf] at h ⊢
      injection h with h1 h2
      rw [h1, h2]
    | none => simp only [hf] at h; exact PR.noConfusion h
  | err i k => simp only [hps] at h; exact PR.noConfusion h
  | incomplete => simp only [hps] at h; exact PR.noConfusion h

theorem mapResP_merr {α β : Type} (p : List Nat → PR α) (f : α → Option β)
    (hp : MOk p) (hpe : MErr p) : MErr (mapResP p f) := by
  intro s ext i k h
  unfold mapResP at h
  cases hps : p s with
  | ok rem2 v2 =>
    simp only [hps] at h
    cases hf : f v2 with
    | some w => simp only [hf] at h; exact PR.noConfusion h
    | none =>
      refine ⟨s ++ ext, .mapRes, ?_⟩
      unfold mapResP
      simp only [hp s ext rem2 v2 hps, hf]
  | err i2 k2 =>
    simp only [hps] at h
    obtain ⟨i3, k3, h3⟩ := hpe s ext i2 k2 hps
    refine ⟨i3, k3, ?_⟩
    unfold mapResP
    simp only [h3]
  | incomplete => simp only [hps] at h; exact PR.noConfusion h

theorem mapResP_sok {α β : Type} (p : List Nat → PR α) (f : α → Option β)
    (hp : SOk p) : SOk (mapResP p f) := by
  intro s rem v h
  unfold mapResP at h
  cases hps : p s with
  | ok rem2 v2 =>
    simp only [hps] at h
    cases hf : f v2 with
    | some w =>
      simp only [hf] at h
      injection h with h1 h2
      exact h1 ▸ hp s rem2 v2 hps
    | none => simp only [hf] at h; exact PR.noConfusion h
  | err i2 k2 => simp only [hps] at h; exact PR.noConfusion h
  | incomplete => simp only [hps] at h; exact PR.noConfusion h

theorem pbind_mok {α β : Type} (p : List Nat → PR α) (f : α → List Nat → PR β)
    (hp : MOk p) (hf : ∀ v, MOk (f v)) : MOk (pbind p f) := by
  intro s ext rem v h
  unfold pbind at h ⊢
  cases hps : p s with
  | ok rem2 v2 =>
    simp only [hps] at h
    simp only [hp s ext rem2 v2 hps]
    exact hf v2 rem2 ext rem v h
  | err i k => simp only [hps] at h; exact PR.noConfusion h
  | incomplete => simp only [hps] at h; exact PR.noConfusion h

theorem pbind_merr {α β : Type} (p : List Nat → PR α) (f : α → List Nat → PR β)
    (hp : MOk p) (hpe : MErr p) (hf : ∀ v, MErr (f v)) : MErr (pbind p f) := by
  intro s ext i k h
  unfold pbind at h
  cases hps : p s with
  | ok rem2 v2 =>
    simp only [hps] at h
    obtain ⟨i3, k3, h3⟩ := hf v2 rem2 ext i k h
    refine ⟨i3, k3, ?_⟩
    unfold pbind
    simp only [hp s ext rem2 v2 hps]
    exact h3
  | err i2 k2 =>
    simp only [hps] at h
    obtain ⟨i3, k3, h3⟩ := hpe s ext i2 k2 hps
    refine ⟨i3, k3, ?_⟩
    unfold pbind
    simp only [h3]
  | incomplete => simp only [hps] at h; exact PR.noConfusion h

theorem pbind_sok {α β : Type} (p : List Nat → PR α) (f : α → List Nat → PR β)
    (hp : SOk p) (hf : ∀ v, SOk (f v)) : SOk (pbind p f) := by
  intro s rem v h
  unfold pbind at h
  cases hps : p s with
  | ok rem2 v2 =>
    simp only [hps] at h
    obtain ⟨pre1, hpre1⟩ := hp s rem2 v2 hps
    obtain ⟨pre2, hpre2⟩ := hf v2 rem2 rem v h
    exact ⟨pre1 ++ pre2, by rw [hpre1, hpre2, List.append_assoc]⟩
  | err i2 k2 => simp only [hps] at h; exact PR.noConfusion h
  | incomplete => simp only [hps] at h; exact PR.noConfusion h

theorem pret_mok {α : Type} (v : α) : MOk (pret v) := by
  intro s ext rem w h
  unfold pret at h ⊢
  injection h with h1 h2
  rw [← h1, ← h2]

theorem pret_merr {α : Type} (v : α) : MErr (pret v) := by
  intro s ext i k h
  unfold pret at h
  exact PR.noConfusion h

theorem pret_sok {α : Type} (v : α) : SOk (pret v) := by
  intro s rem w h
  unfold pret at h
  injection h with h1 h2
  exact ⟨[], by rw [← h1]; rfl⟩

theorem liftDR_mok {α : Type} (d : DR α) : MOk (liftDR d) := by
  intro s ext rem v h
  cases d with
  | ok w =>
    have h2 : PR.ok s w = PR.ok rem v := h
    injection h2 with ha hb
    rw [← ha, ← hb]
    rfl
  | err i0 k0 => exact PR.noConfusion h
  | incomplete => exact PR.noConfusion h

theorem liftDR_merr {α : Type} (d : DR α) : MErr (liftDR d) := by
  intro s ext i k h
  cases d with
  | ok w => exact PR.noConfusion h
  | err i0 k0 => exact ⟨i0, k0, rfl⟩
  | incomplete => exact PR.noConfusion h

theorem liftDR_sok {α : Type} (d : DR α) : SOk (liftDR d) := by
  intro s rem v h
  cases d with
  | ok w =>
    have h2 : PR.ok s w = PR.ok rem v := h
    injection h2 with ha hb
    exact ⟨[], by rw [← ha]; rfl⟩
  | err i0 k0 => exact PR.noConfusion h
  | incomplete => exact PR.noConfusion h

/-! ### Monotonicity of the named parsers -/

theorem crlfP_mok : MOk crlfP := tagK_mok crlfB .crLf

theorem crlfP_merr : MErr crlfP := tagK_merr crlfB .crLf

theorem crlfP_sok : SOk crlfP := tagK_sok crlfB .crLf

theorem digit1P_mok : MOk digit1P := span1P_mok isDigitB .digit

theorem digit1P_merr : MErr digit1P := span1P_merr isDigitB .digit

theorem digit1P_sok : SOk digit1P := span1P_sok isDigitB .digit

theorem hexDigit1P_mok : MOk hexDigit1P := span1P_mok isHexB .hexDigit

theorem hexDigit1P_merr : MErr hexDigit1P := span1P_merr isHexB .hexDigit

theorem hexDigit1P_sok : SOk hexDigit1P := span1P_sok isHexB .hexDigit

theorem u8P_mok : MOk u8P := mapResP_mok digit1P parseU8 digit1P_mok

theorem u8P_merr : MErr u8P := mapResP_merr digit1P parseU8 digit1P_mok digit1P_merr

theorem u8P_sok : SOk u8P := mapResP_sok digit1P parseU8 digit1P_sok

theorem optDotU8_mok : MOk optDotU8 := by
  intro s ext rem v h
  unfold optDotU8 at h ⊢
  cases hin : pbind (tagK [46] ErrKind.tag) (fun _ => u8P) s with
  | ok r x =>
    simp only [hin] at h
    injection h with h1 h2
    simp only [pbind_mok _ _ (tagK_mok [46] .tag) (fun _ => u8P_mok) s ext r x hin]
    rw [← h1, ← h2]
  | err i k =>
    simp only [hin] at h
    injection h with h1 h2
    obtain ⟨i2, k2, h3⟩ := pbind_merr _ _ (tagK_mok [46] .tag) (tagK_merr [46] .tag)
      (fun _ => u8P_merr) s ext i k hin
    simp only [h3]
    rw [← h1, ← h2]
  | incomplete =>
    simp only [hin] at h
    exact PR.noConfusion h

theorem optDotU8_merr : MErr optDotU8 := by
  intro s ext i k h
  unfold optDotU8 at h
  cases hin : pbind (tagK [46] ErrKind.tag) (fun _ => u8P) s with
  | ok r x => simp only [hin] at h; exact PR.noConfusion h
  | err i2 k2 => simp only [hin] at h; exact PR.noConfusion h
  | incomplete => simp only [hin] at h; exact PR.noConfusion h

theorem optDotU8_sok : SOk optDotU8 := by
  intro s rem v h
  unfold optDotU8 at h
  cases hin : pbind (tagK [46] ErrKind.tag) (fun _ => u8P) s with
  | ok r x =>
    simp only [hin] at h
    injection h with h1 h2
    exact h1 ▸ pbind_sok _ _ (tagK_sok [46] .tag) (fun _ => u8P_sok) s r x hin
  | err i2 k2 =>
    simp only [hin] at h
    injection h with h1 h2
    exact ⟨[], by rw [← h1]; rfl⟩
  | incomplete =>
    simp only [hin] at h
    exact PR.noConfusion h

theorem obisP_mok : MOk obisP :=
  pbind_mok _ _ u8P_mok fun _ =>
  pbind_mok _ _ (tagK_mok [45] .tag) fun _ =>
  pbind_mok _ _ u8P_mok fun _ =>
  pbind_mok _ _ (tagK_mok [58] .tag) fun _ =>
  pbind_mok _ _ u8P_mok fun _ =>
  pbind_mok _ _ (tagK_mok [46] .tag) fun _ =>
  pbind_mok _ _ u8P_mok fun _ =>
  pbind_mok _ _ (tagK_mok [46] .tag) fun _ =>
  pbind_mok _ _ u8P_mok fun _ =>
  pbind_mok _ _ optDotU8_mok fun _ =>
  pret_mok _

theorem obisP_merr : MErr obisP :=
  pbind_merr _ _ u8P_mok u8P_merr fun _ =>
  pbind_merr _ _ (tagK_mok [45] .tag) (tagK_merr [45] .tag) fun _ =>
  pbind_merr _ _ u8P_mok u8P_merr fun _ =>
  pbind_merr _ _ (tagK_mok [58] .tag) (tagK_merr [58] .tag) fun _ =>
  pbind_merr _ _ u8P_mok u8P_merr fun _ =>
  pbind_merr _ _ (tagK_mok [46] .tag) (tagK_merr [46] .tag) fun _ =>
  pbind_merr _ _ u8P_mok u8P_merr fun _ =>
  pbind_merr _ _ (tagK_mok [46] .tag) (tagK_merr [46] .tag) fun _ =>
  pbind_merr _ _ u8P_mok u8P_merr fun _ =>
  pbind_merr _ _ optDotU8_mok optDotU8_merr fun _ =>
  pret_merr _

theorem obisP_sok : SOk obisP :=
  pbind_sok _ _ u8P_sok fun _ =>
  pbind_sok _ _ (tagK_sok [45] .tag) fun _ =>
  pbind_sok _ _ u8P_sok fun _ =>
  pbind_sok _ _ (tagK_sok [58] .tag) fun _ =>
  pbind_sok _ _ u8P_sok fun _ =>
  pbind_sok _ _ (tagK_sok [46] .tag) fun _ =>
  pbind_sok _ _ u8P_sok fun _ =>
  pbind_sok _ _ (tagK_sok [46] .tag) fun _ =>
  pbind_sok _ _ u8P_sok fun _ =>
  pbind_sok _ _ optDotU8_sok fun _ =>
  pret_sok _

theorem cosemP_mok : MOk cosemP :=
  pbind_mok _ _ (tagK_mok [40] .tag) fun _ =>
  pbind_mok _ _ (takeUntilP_mok [41]) fun _ =>
  pbind_mok _ _ (tagK_mok [41] .tag) fun _ =>
  pret_mok _

theorem cosemP_merr : MErr cosemP :=
  pbind_merr _ _ (tagK_mok [40] .tag) (tagK_merr [40] .tag) fun _ =>
  pbind_merr _ _ (takeUntilP_mok [41]) (takeUntilP_merr [41]) fun _ =>
  pbind_merr _ _ (tagK_mok [41] .tag) (tagK_merr [41] .tag) fun _ =>
  pret_merr _

theorem cosemP_sok : SOk cosemP :=
  pbind_sok _ _ (tagK_sok [40] .tag) fun _ =>
  pbind_sok _ _ (takeUntilP_sok [41]) fun _ =>
  pbind_sok _ _ (tagK_sok [41] .tag) fun _ =>
  pret_sok _

theorem cosemLoop_mok (fuel : Nat) : ∀ s ext acc rem v,
    cosemLoop fuel s acc = .ok rem v →
    cosemLoop fuel (s ++ ext) acc = .ok (rem ++ ext) v := by
  induction fuel with
  | zero =>
    intro s ext acc rem v h
    unfold cosemLoop at h
    exact PR.noConfusion h
  | succ fuel ih =>
    intro s ext acc rem v h
    unfold cosemLoop at h ⊢
    cases hc : cosemP s with
    | ok next c =>
      simp only [hc] at h
      simp only [cosemP_mok s ext next c hc]
      by_cases hlen : acc.length = 16
      · rw [if_pos hlen] at h
        exact PR.noConfusion h
      · rw [if_neg hlen] at h ⊢
        exact ih next ext (acc ++ [c]) rem v h
    | incomplete =>
      simp only [hc] at h
      exact PR.noConfusion h
    | err i k =>
      simp only [hc] at h
      injection h with h1 h2
      obtain ⟨i2, k2, h3⟩ := cosemP_merr s ext i k hc
      simp only [h3]
      rw [← h1, ← h2]

theorem cosemLoop_merr (fuel : Nat) : ∀ s ext acc i k,
    cosemLoop fuel s acc = .err i k →
    ∃ i2 k2, cosemLoop fuel (s ++ ext) acc = .err i2 k2 := by
  induction fuel with
  | zero =>
    intro s ext acc i k _
    refine ⟨s ++ ext, .tooLarge, ?_⟩
    unfold cosemLoop
    rfl
  | succ fuel ih =>
    intro s ext acc i k h
    unfold cosemLoop at h ⊢
    cases hc : cosemP s with
    | ok next c =>
      simp only [hc] at h
      simp only [cosemP_mok s ext next c hc]
      by_cases hlen : acc.length = 16
      · rw [if_pos hlen] at h ⊢
        exact ⟨next ++ ext, .tooLarge, rfl⟩
      · rw [if_neg hlen] at h ⊢
        exact ih next ext (acc ++ [c]) i k h
    | incomplete =>
      simp only [hc] at h
      exact PR.noConfusion h
    | err i0 k0 =>
      simp only [hc] at h
      exact PR.noConfusion h

theorem cosemLoop_sok (fuel : Nat) : ∀ s acc rem v,
    cosemLoop fuel s acc = .ok rem v → ∃ pre, s = pre ++ rem := by
  induction fuel with
  | zero =>
    intro s acc rem v h
    unfold cosemLoop at h
    exact PR.noConfusion h
  | succ fuel ih =>
    intro s acc rem v h
    unfold cosemLoop at h
    cases hc : cosemP s with
    | ok next c =>
      simp only [hc] at h
      by_cases hlen : acc.length = 16
      · rw [if_pos hlen] at h
        exact PR.noConfusion h
      · rw [if_neg hlen] at h
        obtain ⟨pre1, hpre1⟩ := cosemP_sok s next c hc
        obtain ⟨pre2, hpre2⟩ := ih next (acc ++ [c]) rem v h
        exact ⟨pre1 ++ pre2, by rw [hpre1, hpre2, List.append_assoc]⟩
    | incomplete =>
      simp only [hc] at h
      exact PR.noConfusion h
    | err i k =>
      simp only [hc] at h
      injection h with h1 h2
      exact ⟨[], by rw [← h1]; rfl⟩

theorem rawLineP_mok : MOk rawLineP :=
  pbind_mok _ _ obisP_mok fun _ =>
  pbind_mok _ _ (fun s ext rem v h => cosemLoop_mok 17 s ext [] rem v h) fun _ =>
  pbind_mok _ _ crlfP_mok fun _ =>
  pret_mok _

theorem rawLineP_merr : MErr rawLineP :=
  pbind_merr _ _ obisP_mok obisP_merr fun _ =>
  pbind_merr _ _ (fun s ext rem v h => cosemLoop_mok 17 s ext [] rem v h)
    (fun s ext i k h => cosemLoop_merr 17 s ext [] i k h) fun _ =>
  pbind_merr _ _ crlfP_mok crlfP_merr fun _ =>
  pret_merr _

theorem rawLineP_sok : SOk rawLineP :=
  pbind_sok _ _ obisP_sok fun _ =>
  pbind_sok _ _ (fun s rem v h => cosemLoop_sok 17 s [] rem v h) fun _ =>
  pbind_sok _ _ crlfP_sok fun _ =>
  pret_sok _

theorem lineP_mok : MOk lineP :=
  pbind_mok _ _ rawLineP_mok fun raw => liftDR_mok (decodeLine raw.obis raw.cosem)

theorem lineP_merr : MErr lineP :=
  pbind_merr _ _ rawLineP_mok rawLineP_merr fun raw =>
    liftDR_merr (decodeLine raw.obis raw.cosem)

theorem lineP_sok : SOk lineP :=
  pbind_sok _ _ rawLineP_sok fun raw => liftDR_sok (decodeLine raw.obis raw.cosem)

theorem deviceIdP_mok : MOk deviceIdP :=
  pbind_mok _ _ (tagK_mok [47] .tag) fun _ =>
  pbind_mok _ _ (takeUntilP_mok crlfB) fun _ =>
  pbind_mok _ _ crlfP_mok fun _ =>
  pbind_mok _ _ crlfP_mok fun _ =>
  pret_mok _

theorem deviceIdP_merr : MErr deviceIdP :=
  pbind_merr _ _ (tagK_mok [47] .tag) (tagK_merr [47] .tag) fun _ =>
  pbind_merr _ _ (takeUntilP_mok crlfB) (takeUntilP_merr crlfB) fun _ =>
  pbind_merr _ _ crlfP_mok crlfP_merr fun _ =>
  pbind_merr _ _ crlfP_mok crlfP_merr fun _ =>
  pret_merr _

theorem deviceIdP_sok : SOk deviceIdP :=
  pbind_sok _ _ (tagK_sok [47] .tag) fun _ =>
  pbind_sok _ _ (takeUntilP_sok crlfB) fun _ =>
  pbind_sok _ _ crlfP_sok fun _ =>
  pbind_sok _ _ crlfP_sok fun _ =>
  pret_sok _

theorem crcPre_mok : MOk crcPre :=
  pbind_mok _ _ (tagK_mok [33] .tag) fun _ =>
  pbind_mok _ _ hexDigit1P_mok fun _ =>
  pbind_mok _ _ crlfP_mok fun _ =>
  pret_mok _

theorem crcPre_merr : MErr crcPre :=
  pbind_merr _ _ (tagK_mok [33] .tag) (tagK_merr [33] .tag) fun _ =>
  pbind_merr _ _ hexDigit1P_mok hexDigit1P_merr fun _ =>
  pbind_merr _ _ crlfP_mok crlfP_merr fun _ =>
  pret_merr _

theorem crcPre_sok : SOk crcPre :=
  pbind_sok _ _ (tagK_sok [33] .tag) fun _ =>
  pbind_sok _ _ hexDigit1P_sok fun _ =>
  pbind_sok _ _ crlfP_sok fun _ =>
  pret_sok _

/-! ### The checksum-trailer parser with its panic -/

theorem crcP_mokO (s ext rem : List Nat) (v : Nat)
    (h : crcP s = some (.ok rem v)) :
    crcP (s ++ ext) = some (.ok (rem ++ ext) v) := by
  unfold crcP at h ⊢
  cases hc : crcPre s with
  | err i k => simp only [hc] at h; simp at h
  | incomplete => simp only [hc] at h; simp at h
  | ok s3 ds =>
    simp only [hc] at h
    simp only [crcPre_mok s ext s3 ds hc]
    cases hd : decodeHex2 ds with
    | none => simp only [hd] at h; simp at h
    | some ex =>
      cases ex with
      | error k => simp only [hd] at h; simp at h
      | ok bb =>
        obtain ⟨b0, b1⟩ := bb
        simp only [hd] at h ⊢
        injection h with h2
        injection h2 with h3 h4
        rw [← h3, ← h4]

theorem crcP_merrO (s ext i : List Nat) (k : ErrKind)
    (h : crcP s = some (.err i k)) :
    ∃ i2 k2, crcP (s ++ ext) = some (.err i2 k2) := by
  unfold crcP at h
  cases hc : crcPre s with
  | err i0 k0 =>
    simp only [hc] at h
    obtain ⟨i2, k2, h3⟩ := crcPre_merr s ext i0 k0 hc
    refine ⟨i2, k2, ?_⟩
    unfold crcP
    simp only [h3]
  | incomplete => simp only [hc] at h; simp at h
  | ok s3 ds =>
    simp only [hc] at h
    cases hd : decodeHex2 ds with
    | none => simp only [hd] at h; simp at h
    | some ex =>
      cases ex with
      | error k0 =>
        refine ⟨ds, k0, ?_⟩
        unfold crcP
        simp only [crcPre_mok s ext s3 ds hc, hd]
      | ok bb =>
        obtain ⟨b0, b1⟩ := bb
        simp only [hd] at h
        simp at h

theorem crcP_panic (s ext : List Nat) (h : crcP s = none) :
    crcP (s ++ ext) = none := by
  unfold crcP at h ⊢
  cases hc : crcPre s with
  | err i k => simp only [hc] at h; simp at h
  | incomplete => simp only [hc] at h; simp at h
  | ok s3 ds =>
    simp only [hc] at h
    simp only [crcPre_mok s ext s3 ds hc]
    cases hd : decodeHex2 ds with
    | none => simp only [hd]
    | some ex =>
      cases ex with
      | error k => simp only [hd] at h; simp at h
      | ok bb =>
        obtain ⟨b0, b1⟩ := bb
        simp only [hd] at h
        simp at h

theorem crcP_sokO (s rem : List Nat) (v : Nat)
    (h : crcP s = some (.ok rem v)) : ∃ pre, s = pre ++ rem := by
  unfold crcP at h
  cases hc : crcPre s with
  | err i k => simp only [hc] at h; simp at h
  | incomplete => simp only [hc] at h; simp at h
  | ok s3 ds =>
    simp only [hc] at h
    cases hd : decodeHex2 ds with
    | none => simp only [hd] at h; simp at h
    | some ex =>
      cases ex with
      | error k => simp only [hd] at h; simp at h
      | ok bb =>
        obtain ⟨b0, b1⟩ := bb
        simp only [hd] at h
        injection h with h2
        injection h2 with h3 h4
        exact h3 ▸ crcPre_sok s s3 ds hc

/-! ### The telegram body loop and framer -/

theorem telLoop_mokO (fuel : Nat) : ∀ e1 e2 s ext acc rem v,
    telLoop fuel e1 s acc = some (.ok rem v) →
    telLoop fuel e2 (s ++ ext) acc = some (.ok (rem ++ ext) v) := by
  induction fuel with
  | zero =>
    intro e1 e2 s ext acc rem v h
    unfold telLoop at h
    simp at h
  | succ fuel ih =>
    intro e1 e2 s ext acc rem v h
    unfold telLoop at h ⊢
    cases hc : crcP s with
    | none => simp only [hc] at h; simp at h
    | some pr =>
      cases pr with
      | incomplete => simp only [hc] at h; simp at h
      | ok next c =>
        simp only [hc] at h
        simp only [crcP_mokO s ext next c hc]
        injection h with h2
        injection h2 with h3 h4
        rw [← h3, ← h4]
      | err i0 k0 =>
        simp only [hc] at h
        obtain ⟨i2, k2, h3⟩ := crcP_merrO s ext i0 k0 hc
        simp only [h3]
        cases hl : lineP s with
        | ok next l =>
          simp only [hl] at h
          simp only [lineP_mok s ext next l hl]
          by_cases hlen : acc.length = 32
          · rw [if_pos hlen] at h
            simp at h
          · rw [if_neg hlen] at h ⊢
            exact ih e1 e2 next ext (acc ++ [l]) rem v h
        | err i3 k3 => simp only [hl] at h; simp at h
        | incomplete => simp only [hl] at h; simp at h

theorem telLoop_merrO (fuel : Nat) : ∀ e1 e2 s ext acc i k,
    telLoop fuel e1 s acc = some (.err i k) →
    ∃ i2 k2, telLoop fuel e2 (s ++ ext) acc = some (.err i2 k2) := by
  induction fuel with
  | zero =>
    intro e1 e2 s ext acc i k _
    refine ⟨e2, .tooLarge, ?_⟩
    unfold telLoop
    rfl
  | succ fuel ih =>
    intro e1 e2 s ext acc i k h
    unfold telLoop at h ⊢
    cases hc : crcP s with
    | none => simp only [hc] at h; simp at h
    | some pr =>
      cases pr with
      | incomplete => simp only [hc] at h; simp at h
      | ok next c => simp only [hc] at h; simp at h
      | err i0 k0 =>
        simp only [hc] at h
        obtain ⟨i2, k2, h3⟩ := crcP_merrO s ext i0 k0 hc
        simp only [h3]
        cases hl : lineP s with
        | ok next l =>
          simp only [hl] at h
          simp only [lineP_mok s ext next l hl]
          by_cases hlen : acc.length = 32
          · rw [if_pos hlen] at h ⊢
            exact ⟨e2, .tooLarge, rfl⟩
          · rw [if_neg hlen] at h ⊢
            exact ih e1 e2 next ext (acc ++ [l]) i k h
        | err i3 k3 =>
          simp only [hl] at h
          obtain ⟨i4, k4, h4⟩ := lineP_merr s ext i3 k3 hl
          simp only [h4]
          exact ⟨i4, k4, rfl⟩
        | incomplete => simp only [hl] at h; simp at h

theorem telLoop_panic (fuel : Nat) : ∀ e1 e2 s ext acc,
    telLoop fuel e1 s acc = none →
    telLoop fuel e2 (s ++ ext) acc = none := by
  induction fuel with
  | zero =>
    intro e1 e2 s ext acc h
    unfold telLoop at h
    simp at h
  | succ fuel ih =>
    intro e1 e2 s ext acc h
    unfold telLoop at h ⊢
    cases hc : crcP s with
    | none =>
      simp only [crcP_panic s ext hc]
    | some pr =>
      cases pr with
      | incomplete => simp only [hc] at h; simp at h
      | ok next c => simp only [hc] at h; simp at h
      | err i0 k0 =>
        simp only [hc] at h
        obtain ⟨i2, k2, h3⟩ := crcP_merrO s ext i0 k0 hc
        simp only [h3]
        cases hl : lineP s with
        | ok next l =>
          simp only [hl] at h
          simp only [lineP_mok s ext next l hl]
          by_cases hlen : acc.length = 32
          · rw [if_pos hlen] at h
            simp at h
          · rw [if_neg hlen] at h ⊢
            exact ih e1 e2 next ext (acc ++ [l]) h
        | err i3 k3 => simp only [hl] at h; simp at h
        | incomplete => simp only [hl] at h; simp at h

theorem telLoop_sokO (fuel : Nat) : ∀ e s acc rem v,
    telLoop fuel e s acc = some (.ok rem v) → ∃ pre, s = pre ++ rem := by
  induction fuel with
  | zero =>
    intro e s acc rem v h
    unfold telLoop at h
    simp at h
  | succ fuel ih =>
    intro e s acc rem v h
    unfold telLoop at h
    cases hc : crcP s with
    | none => simp only [hc] at h; simp at h
    | some pr =>
      cases pr with
      | incomplete => simp only [hc] at h; simp at h
      | ok next c =>
        simp only [hc] at h
        injection h with h2
        injection h2 with h3 h4
        exact h3 ▸ crcP_sokO s next c hc
      | err i0 k0 =>
        simp only [hc] at h
        cases hl : lineP s with
        | ok next l =>
          simp only [hl] at h
          by_cases hlen : acc.length = 32
          · rw [if_pos hlen] at h
            simp at h
          · rw [if_neg hlen] at h
            obtain ⟨pre1, hpre1⟩ := lineP_sok s next l hl
            obtain ⟨pre2, hpre2⟩ := ih e next (acc ++ [l]) rem v h
            exact ⟨pre1 ++ pre2, by rw [hpre1, hpre2, List.append_assoc]⟩
        | err i3 k3 => simp only [hl] at h; simp at h
        | incomplete => simp only [hl] at h; simp at h

theorem telegramP_mokO (s ext rem : List Nat) (v : Telegram)
    (h : telegramP s = some (.ok rem v)) :
    telegramP (s ++ ext) = some (.ok (rem ++ ext) v) := by
  unfold telegramP at h ⊢
  cases hd : deviceIdP s with
  | err i k => simp only [hd] at h; simp at h
  | incomplete => simp only [hd] at h; simp at h
  | ok s1 id =>
    simp only [hd] at h
    simp only [deviceIdP_mok s ext s1 id hd]
    by_cases hlen : 32 < id.length
    · rw [if_pos hlen] at h
      simp at h
    · rw [if_neg hlen] at h ⊢
      cases ht : telLoop 33 s1 s1 [] with
      | none => simp only [ht] at h; simp at h
      | some pr =>
        cases pr with
        | ok rem2 lv =>
          obtain ⟨ls, c⟩ := lv
          simp only [ht] at h
          simp only [telLoop_mokO 33 s1 (s1 ++ ext) s1 ext [] rem2 (ls, c) ht]
          injection h with h2
          injection h2 with h3 h4
          rw [← h3, ← h4]
        | err i k =>
          simp only [ht] at h
          simp at h
        | incomplete =>
          simp only [ht] at h
          simp at h

theorem telegramP_merrO (s ext i : List Nat) (k : ErrKind)
    (h : telegramP s = some (.err i k)) :
    ∃ i2 k2, telegramP (s ++ ext) = some (.err i2 k2) := by
  unfold telegramP at h
  cases hd : deviceIdP s with
  | err i0 k0 =>
    simp only [hd] at h
    obtain ⟨i2, k2, h3⟩ := deviceIdP_merr s ext i0 k0 hd
    refine ⟨i2, k2, ?_⟩
    unfold telegramP
    simp only [h3]
  | incomplete => simp only [hd] at h; simp at h
  | ok s1 id =>
    simp only [hd] at h
    by_cases hlen : 32 < id.length
    · refine ⟨s1 ++ ext, .tooLarge, ?_⟩
      unfold telegramP
      simp only [deviceIdP_mok s ext s1 id hd]
      rw [if_pos hlen]
    · rw [if_neg hlen] at h
      cases ht : telLoop 33 s1 s1 [] with
      | none => simp only [ht] at h; simp at h
      | some pr =>
        cases pr with
        | ok rem2 lv => simp only [ht] at h; simp at h
        | err i0 k0 =>
          simp only [ht] at h
          obtain ⟨i2, k2, h3⟩ := telLoop_merrO 33 s1 (s1 ++ ext) s1 ext [] i0 k0 ht
          refine ⟨i2, k2, ?_⟩
          unfold telegramP
          simp only [deviceIdP_mok s ext s1 id hd]
          rw [if_neg hlen]
          simp only [h3]
        | incomplete => simp only [ht] at h; simp at h

theorem telegramP_panic (s ext : List Nat) (h : telegramP s = none) :
    telegramP (s ++ ext) = none := by
  unfold telegramP at h ⊢
  cases hd : deviceIdP s with
  | err i k => simp only [hd] at h; simp at h
  | incomplete => simp only [hd] at h; simp at h
  | ok s1 id =>
    simp only [hd] at h
    simp only [deviceIdP_mok s ext s1 id hd]
    by_cases hlen : 32 < id.length
    · rw [if_pos hlen] at h
      simp at h
    · rw [if_neg hlen] at h ⊢
      cases ht : telLoop 33 s1 s1 [] with
      | none =>
        simp only [telLoop_panic 33 s1 (s1 ++ ext) s1 ext [] ht]
      | some pr =>
        cases pr with
        | ok rem2 lv => simp only [ht] at h; simp at h
        | err i0 k0 => simp only [ht] at h; simp at h
        | incomplete => simp only [ht] at h; simp at h

theorem telegramP_sok (s rem : List Nat) (v : Telegram)
    (h : telegramP s = some (.ok rem v)) : ∃ pre, s = pre ++ rem := by
  unfold telegramP at h
  cases hd : deviceIdP s with
  | err i k => simp only [hd] at h; simp at h
  | incomplete => simp only [hd] at h; simp at h
  | ok s1 id =>
    simp only [hd] at h
    by_cases hlen : 32 < id.length
    · rw [if_pos hlen] at h
      simp at h
    · rw [if_neg hlen] at h
      cases ht : telLoop 33 s1 s1 [] with
      | none => simp only [ht] at h; simp at h
      | some pr =>
        cases pr with
        | ok rem2 lv =>
          obtain ⟨ls, c⟩ := lv
          simp only [ht] at h
          injection h with h2
          injection h2 with h3 h4
          obtain ⟨pre1, hpre1⟩ := deviceIdP_sok s s1 id hd
          obtain ⟨pre2, hpre2⟩ := telLoop_sokO 33 s1 s1 [] rem2 (ls, c) ht
          exact ⟨pre1 ++ pre2, by rw [hpre1, hpre2, ← h3, List.append_assoc]⟩
        | err i0 k0 => simp only [ht] at h; simp at h
        | incomplete => simp only [ht] at h; simp at h

/-! ### ASCII inputs pass the UTF-8 gate -/

theorem utf8Go_ascii (s : List Nat) : ∀ pos, (∀ b ∈ s, b ≤ 127) →
    utf8Go s pos = .valid := by
  induction s with
  | nil => intro pos _; rfl
  | cons b rest ih =>
    intro pos h
    have hb : asciiB b = true := by
      unfold asciiB
      simp [h b (by simp)]
    rw [utf8Go.eq_def]
    simp only [hb, if_true]
    exact ih (pos + 1) (fun x hx => h x (by simp [hx]))

theorem utf8Status_ascii (s : List Nat) (h : ∀ b ∈ s, b ≤ 127) :
    utf8Status s = .valid := utf8Go_ascii s 0 h

/-! ## Claims -/

/-- C2 (code_bug evidence): on the input `/X\r\n\r\n!A\r\n`, whose checksum
trailer carries a single hex digit, `parse` reaches the out-of-bounds index
`data[1]` in `decode_hex` and panics instead of returning a value. -/
theorem C2_decode_hex_out_of_bounds : parse panicInput = none := by decide

/-- C3 (amended): for every input whose UTF-8 validation fails with
`error_len = None` — i.e. whose only defect is a truncated multi-byte
sequence at the very end — `parse` returns `consumed = 0` with the error
`InvalidUtf8` (not `Incomplete` as the claim states). -/
theorem C3_truncated_utf8_consumes_zero (s : List Nat) (v : Nat)
    (h : utf8Status s = .invalid v none) :
    parse s = some (0, .error .invalidUtf8) := by
  unfold parse
  rw [h]
  rfl

/-- C3 counterexample: the single byte `0xC3` is exactly a truncated
two-byte UTF-8 sequence at the end of the slice, yet `parse` reports
`InvalidUtf8`, not `Incomplete`. -/
theorem C3_cex :
    utf8Status [195] = .invalid 0 none ∧
    parse [195] ≠ some (0, .error .incomplete) ∧
    parse [195] = some (0, .error .invalidUtf8) :=
  ⟨by decide, by decide, by decide⟩

/-- C3 witness: the amended theorem applied to the byte `0xC3`. -/
theorem C3_witness : parse [195] = some (0, .error .invalidUtf8) :=
  C3_truncated_utf8_consumes_zero [195] 0 (by decide)

/-- C4: `crc16` implements CRC-16/ARC — initial state 0, each byte XORed
into the low byte of the state followed by 8 rounds of (shift right, XOR
`0xA001` when the low bit was set), no final XOR — and
`crc16("123456789") = 0xBB3D`. -/
theorem C4_crc16_arc :
    (∀ data, crc16 data = crcArc data) ∧ crc16 (strBytes "123456789") = 0xBB3D :=
  ⟨crc16_eq_crcArc, by decide⟩

/-- C6: the OBIS parser defaults group F to 255 when absent:
`"0-0:96.7.21()"` parses to `[0,0,96,7,21,255]` and `"255-255:0.1.0.18()"`
(F present) to `[255,255,0,1,0,18]`, in both cases leaving `"()"`. -/
theorem C6_obis_group_f :
    obisP (strBytes "0-0:96.7.21()") = .ok (strBytes "()") ⟨0, 0, 96, 7, 21, 255⟩ ∧
    obisP (strBytes "255-255:0.1.0.18()") = .ok (strBytes "()") ⟨255, 255, 0, 1, 0, 18⟩ :=
  ⟨by decide, by decide⟩

/-- C5: on a string of exactly `digits` decimal digits, a literal `.`, and
exactly `decimals` decimal digits (both counts positive and the value within
`u32` range, as `fixed_point`'s `u32` arithmetic requires), the fixed-point
decoder returns exactly `integer * 10 ^ decimals + fractional` as an
unscaled integer, consuming the whole string. -/
theorem C5_fixed_point_exact (I F : List Nat) (digits decimals : Nat)
    (hI : I.length = digits) (hF : F.length = decimals)
    (hdI : ∀ b ∈ I, isDigitB b = true) (hdF : ∀ b ∈ F, isDigitB b = true)
    (h1 : 1 ≤ digits) (h2 : 1 ≤ decimals)
    (hfit : valNat I * 10 ^ decimals + valNat F < 4294967296) :
    fixedPoint digits decimals (I ++ 46 :: F) =
      .ok [] (valNat I * 10 ^ decimals + valNat F) := by
  have hIne : I ≠ [] := by
    intro hnil; rw [hnil] at hI; simp at hI; omega
  have hFne : F ≠ [] := by
    intro hnil; rw [hnil] at hF; simp at hF; omega
  have hpow1 : 1 ≤ 10 ^ decimals := Nat.one_le_pow _ _ (by norm_num)
  have hvI : valNat I < 4294967296 := by
    have hle : valNat I ≤ valNat I * 10 ^ decimals := Nat.le_mul_of_pos_right _ (by omega)
    omega
  have hvF : valNat F < 4294967296 := by omega
  have htw1 : twmnS digits digits isDigitB (I ++ 46 :: F) = .ok (46 :: F) I :=
    twmnS_exact _ _ _ _ hI hdI (by simp [List.takeWhile_cons, isDigitB]) (by simp)
  have htag : tagK [46] ErrKind.tag (46 :: F) = .ok F [46] := by
    unfold tagK
    rw [if_pos (by simp [pfx])]
    rfl
  have htw2 : twmnS decimals decimals isDigitB F = .ok [] F := twmnS_all _ _ _ hF hdF
  have hP1 : parseU32 I = some (valNat I) := parseU32_digits I hIne hdI hvI
  have hP2 : parseU32 F = some (valNat F) := parseU32_digits F hFne hdF hvF
  have harith : (valNat I * u32pow 10 decimals % 4294967296 + valNat F) % 4294967296 =
      valNat I * 10 ^ decimals + valNat F := by
    unfold u32pow
    rcases Nat.eq_zero_or_pos (valNat I) with h0 | hpos
    · rw [h0]
      simp [Nat.mod_eq_of_lt hvF]
    · have hple : 10 ^ decimals ≤ valNat I * 10 ^ decimals :=
        Nat.le_mul_of_pos_left _ hpos
      have hpowlt : 10 ^ decimals < 4294967296 := by omega
      have hmullt : valNat I * 10 ^ decimals < 4294967296 := by omega
      rw [Nat.mod_eq_of_lt hpowlt, Nat.mod_eq_of_lt hmullt, Nat.mod_eq_of_lt hfit]
  simp only [fixedPoint, mapResP, pbind, pret]
  simp only [htw1, htag, htw2, hP1, hP2, harith]

/-- C5 witness: decoding `"004436.791"` with 6 integer digits / 3 decimals
yields exactly 4436791, and `"00.329"` with 2 / 3 yields 329. -/
theorem C5_witness :
    fixedPoint 6 3 (strBytes "004436.791") = .ok [] 4436791 ∧
    fixedPoint 2 3 (strBytes "00.329") = .ok [] 329 := by
  have h1 := C5_fixed_point_exact (strBytes "004436") (strBytes "791") 6 3
    (by decide) (by decide) (by decide) (by decide) (by decide) (by decide) (by decide)
  have h2 := C5_fixed_point_exact (strBytes "00") (strBytes "329") 2 3
    (by decide) (by decide) (by decide) (by decide) (by decide) (by decide) (by decide)
  refine ⟨?_, ?_⟩
  · rw [show strBytes "004436.791" = strBytes "004436" ++ 46 :: strBytes "791" from rfl, h1]
    decide
  · rw [show strBytes "00.329" = strBytes "00" ++ 46 :: strBytes "329" from rfl, h2]
    decide

/-- C7: every syntactically well-formed data line whose OBIS code misses the
dispatch table decodes to `Line::UnknownObis` carrying the raw 6-byte code —
never an error — so telegram parsing continues with the following lines. -/
theorem C7_unknown_obis_tolerated (s rem : List Nat) (raw : RawLine)
    (hraw : rawLineP s = .ok rem raw) (h : ¬ dispatched raw.obis) :
    lineP s = .ok rem (.unknownObis raw.obis) := by
  unfold lineP pbind
  rw [hraw]
  show liftDR (decodeLine raw.obis raw.cosem) rem = _
  rw [decodeLine_unknown raw.obis raw.cosem h]
  rfl

/-- C7 witness: the line `0-0:96.13.1()\r\n` carries an OBIS code outside
the dispatch table and decodes to `UnknownObis [0,0,96,13,1,255]`. -/
theorem C7_witness :
    lineP (strBytes "0-0:96.13.1()\r\n") =
      .ok [] (.unknownObis ⟨0, 0, 96, 13, 1, 255⟩) :=
  C7_unknown_obis_tolerated (strBytes "0-0:96.13.1()\r\n") []
    ⟨⟨0, 0, 96, 13, 1, 255⟩, [[]]⟩ (by decide) (by simp [dispatched])

/-- C9 (amended): for every telegram whose first line is an emitted variant,
`serialize` emits `{`, the fields of the recognized lines in telegram-line
order joined by single commas (no leading or trailing comma, `EquipmentId` /
`PowerFailureLog` / `UnknownObis` lines omitted), then `}`.  (A skipped line
at the head would contribute a leading comma, see the counterexample.) -/
theorem C9_serialize_json (t : Telegram) (h : headEmitted t.lines = true) :
    serialize t =
      "\x7b".data ++ joinSep (t.lines.filterMap emitField) ++ "\x7d".data := by
  suffices hmid : serializeLines [] t.lines = joinSep (t.lines.filterMap emitField) by
    unfold serialize
    rw [hmid]
  cases hl : t.lines with
  | nil => rfl
  | cons l rest =>
    rw [hl] at h
    simp only [headEmitted] at h
    cases he : emitField l with
    | none => rw [he] at h; simp at h
    | some f =>
      simp only [serializeLines, he, List.filterMap_cons, List.nil_append,
        serializeLines_comma, joinSep_cons_foldr]

/-- C9 counterexample: a telegram whose first line is `EquipmentId` (a
skipped variant) still advances the separator, so the output carries a
leading comma and is not the comma-separated join the claim describes. -/
theorem C9_cex :
    serialize skipFirstTelegram = "\x7b,\"dsmr_version\": 42\x7d".data ∧
    serialize skipFirstTelegram ≠
      "\x7b".data ++ joinSep (skipFirstTelegram.lines.filterMap emitField) ++
        "\x7d".data :=
  ⟨by decide, by decide⟩

/-- C9 witness: the amended theorem applied to a telegram whose first line
is emitted and which contains a skipped line in the middle. -/
theorem C9_witness :
    serialize emitFirstTelegram =
      "\x7b\"dsmr_version\": 42,\"active_tariff\": 1\x7d".data :=
  (C9_serialize_json emitFirstTelegram (by decide)).trans (by decide)

/-- C1: the differential consumption policy of `parse` (whenever it returns
at all): `Incomplete` consumes 0 bytes, a structural `ParseError` consumes
exactly 1 byte, and `Ok` or `ChecksumMismatch` consume exactly the byte span
of the telegram recognized by the framer (start marker through the checksum
trailer's final `\r\n`), so a checksum-rejected telegram is fully consumed. -/
theorem C1_differential_consumption (s : List Nat) (c : Nat)
    (r : Except TelegramParseError Telegram) (h : parse s = some (c, r)) :
    (r = .error .incomplete → c = 0) ∧
    (∀ p k, r = .error (.parseError p k) → c = 1) ∧
    ((∃ t, r = .ok t) ∨ (∃ x y, r = .error (.crcMismatch x y)) →
      telSpan s = some c) := by
  unfold parse at h
  split at h
  case _ v el heq =>
    rw [Option.some.injEq, Prod.mk.injEq] at h
    obtain ⟨hc, hr⟩ := h
    subst hc; subst hr
    refine ⟨fun h2 => by simp at h2, fun p k h2 => by simp at h2, fun h2 => ?_⟩
    rcases h2 with ⟨t, ht⟩ | ⟨x, y, ht⟩ <;> simp at ht
  case _ =>
    split at h
    · exact absurd h (by simp)
    case _ rem t heq =>
      rw [Option.some.injEq, Prod.mk.injEq] at h
      obtain ⟨hc, hr⟩ := h
      refine ⟨fun h2 => ?_, fun p k h2 => ?_, fun _ => ?_⟩
      · rw [← hr] at h2; split at h2 <;> simp at h2
      · rw [← hr] at h2; split at h2 <;> simp at h2
      · unfold telSpan
        rw [heq]
        show some (s.length - rem.length) = some c
        exact congrArg some hc
    case _ heq =>
      rw [Option.some.injEq, Prod.mk.injEq] at h
      obtain ⟨hc, hr⟩ := h
      subst hc; subst hr
      refine ⟨fun _ => rfl, fun p k h2 => by simp at h2, fun h2 => ?_⟩
      rcases h2 with ⟨t, ht⟩ | ⟨x, y, ht⟩ <;> simp at ht
    case _ i k heq =>
      rw [Option.some.injEq, Prod.mk.injEq] at h
      obtain ⟨hc, hr⟩ := h
      subst hc; subst hr
      refine ⟨fun h2 => by simp at h2, fun p k h2 => rfl, fun h2 => ?_⟩
      rcases h2 with ⟨t, ht⟩ | ⟨x, y, ht⟩ <;> simp at ht

/-- C1 witness: on a structurally well-formed 13-byte telegram whose
trailer reads `0x0000` while the computed CRC differs, `parse` reports a
checksum mismatch and the span is the full 13 bytes. -/
theorem C1_witness : telSpan mismatchInput = some 13 :=
  (C1_differential_consumption mismatchInput 13
      (.error (.crcMismatch 47274 0)) (by decide)).2.2
    (Or.inr ⟨47274, 0, rfl⟩)

/-- C10: whenever `parse` returns, the consumed count is at most the length
of the input slice, in every outcome. -/
theorem C10_consumed_le_length (s : List Nat) (c : Nat)
    (r : Except TelegramParseError Telegram) (h : parse s = some (c, r)) :
    c ≤ s.length := by
  unfold parse at h
  split at h
  case _ v el heq =>
    rw [Option.some.injEq, Prod.mk.injEq] at h
    obtain ⟨hc, hr⟩ := h
    cases el with
    | none => simp at hc; omega
    | some e =>
      have hb := utf8Go_invalid_le s 0 v e heq
      simp at hc
      omega
  case _ =>
    split at h
    · exact absurd h (by simp)
    case _ rem t heq =>
      rw [Option.some.injEq, Prod.mk.injEq] at h
      obtain ⟨hc, hr⟩ := h
      omega
    case _ heq =>
      rw [Option.some.injEq, Prod.mk.injEq] at h
      obtain ⟨hc, hr⟩ := h
      omega
    case _ i k heq =>
      rw [Option.some.injEq, Prod.mk.injEq] at h
      obtain ⟨hc, hr⟩ := h
      cases s with
      | nil => rw [show telegramP [] = some PR.incomplete from rfl] at heq; simp at heq
      | cons b s2 => simp; omega

/-- C10 witness: the theorem applied at the 13-byte mismatch input. -/
theorem C10_witness : 13 ≤ mismatchInput.length :=
  C10_consumed_le_length mismatchInput 13
    (.error (.crcMismatch 47274 0)) (by decide)

/-- C8 counterexample: the telegram `/é\r\n\r\n!0FD0\r\n` (device id
`0xC3 0xA9`) is well-formed — correct framing and CRC, fully consumed — yet
cutting it after 2 bytes splits the UTF-8 sequence and `parse` returns
`(0, InvalidUtf8)`, not `(0, Incomplete)`. -/
theorem C8_cex :
    parse nonAsciiTelegram =
      some (nonAsciiTelegram.length, .ok ⟨[195, 169], [], 4048⟩) ∧
    (2 : Nat) < nonAsciiTelegram.length ∧
    parse (nonAsciiTelegram.take 2) ≠ some (0, .error .incomplete) ∧
    parse (nonAsciiTelegram.take 2) = some (0, .error .invalidUtf8) :=
  ⟨by decide, by decide, by decide, by decide⟩

/-- C8 (amended): for every well-formed telegram consisting solely of ASCII
bytes (correct framing and CRC, fully consumed by `parse`), every strict
prefix yields `(0, Incomplete)`. -/
theorem C8_incomplete_prefix_ascii (T : List Nat) (tel : Telegram)
    (hascii : ∀ b ∈ T, b ≤ 127)
    (hwf : parse T = some (T.length, .ok tel)) :
    ∀ k, k < T.length → parse (T.take k) = some (0, .error .incomplete) := by
  intro k hk
  have hvalid : utf8Status T = .valid := utf8Status_ascii T hascii
  have hvalidk : utf8Status (T.take k) = .valid :=
    utf8Status_ascii _ (fun b hb => hascii b (List.take_subset k T hb))
  have hT : ∃ t, telegramP T = some (.ok [] t) := by
    unfold parse at hwf
    rw [hvalid] at hwf
    cases htp : telegramP T with
    | none => rw [htp] at hwf; simp at hwf
    | some pr =>
      cases pr with
      | ok rem t =>
        rw [htp] at hwf
        rw [Option.some.injEq, Prod.mk.injEq] at hwf
        obtain ⟨hlen, _⟩ := hwf
        obtain ⟨pre, hpre⟩ := telegramP_sok T rem t htp
        have hremlen : rem.length ≤ T.length := by
          rw [hpre]
          simp
        have hrem0 : rem.length = 0 := by omega
        have hrem : rem = [] := List.length_eq_zero.mp hrem0
        exact ⟨t, by rw [hrem]⟩
      | err i k2 => rw [htp] at hwf; simp at hwf
      | incomplete => rw [htp] at hwf; simp at hwf
  obtain ⟨t, hT⟩ := hT
  have hsplit : T.take k ++ T.drop k = T := List.take_append_drop k T
  cases htk : telegramP (T.take k) with
  | none =>
    have hpan := telegramP_panic (T.take k) (T.drop k) htk
    rw [hsplit] at hpan
    rw [hpan] at hT
    simp at hT
  | some pr =>
    cases pr with
    | ok rem2 t2 =>
      exfalso
      have hmo := telegramP_mokO (T.take k) (T.drop k) rem2 t2 htk
      rw [hsplit] at hmo
      rw [hmo] at hT
      rw [Option.some.injEq, PR.ok.injEq] at hT
      obtain ⟨h1, _⟩ := hT
      have hdrop : T.drop k = [] := (List.append_eq_nil.mp h1).2
      have : T.length ≤ k := by
        have h2 := congrArg List.length hdrop
        simp at h2
        omega
      omega
    | err i2 k2 =>
      exfalso
      obtain ⟨i3, k3, h3⟩ := telegramP_merrO (T.take k) (T.drop k) i2 k2 htk
      rw [hsplit] at h3
      rw [h3] at hT
      simp at hT
    | incomplete =>
      unfold parse
      rw [hvalidk, htk]

/-- C8 witness: the amended theorem applied to the 13-byte ASCII telegram
`/X\r\n\r\n!B8AA\r\n` at the prefix length 3. -/
theorem C8_witness : parse (wfInput.take 3) = some (0, .error .incomplete) :=
  C8_incomplete_prefix_ascii wfInput ⟨strBytes "X", [], 47274⟩ (by decide) (by decide)
    3 (by decide)

end Dsmr

